import Mathlib

/-!
# Verification of the change-streams versioned document store

Shallow embedding of `src/change_streams/store.py` and the change-feed
endpoint of `src/change_streams/http.py`, together with theorems settling
the frozen claims about the specification.

Modelling conventions:
* Python dicts are embedded as insertion-ordered association lists
  (`List (String × α)`); `dictGet` returns the first binding, `dictSet`
  updates in place or appends, matching CPython dict semantics.
* JSON values are the inductive `JValue`; Python `None` and JSON `null`
  are both `JValue.null` (they are the same object in the source).
* Python ints are `Int`.  Floats appear only as parsed numeric literals
  and timestamps; they are idealised as `ℚ` (`JValue.float`) resp. `Int`
  timestamps, since no claim depends on IEEE-754 rounding.
* Fallible Python code (statements that can raise) is embedded with
  `Except PyError`.
* `list.sort` (Timsort) is a stable sort; any stable sort computes the
  same output, so it is embedded as `List.insertionSort`, which is stable.
-/

/-- JSON value as stored in a document (`value` field). -/
inductive JValue where
  | null : JValue
  | bool (b : Bool) : JValue
  | int (n : Int) : JValue
  | float (q : ℚ) : JValue
  | str (s : String) : JValue
  | arr (elems : List JValue) : JValue
  | obj (fields : List (String × JValue)) : JValue
deriving Repr

/-- `store.py` line 9: operation type enumeration. -/
inductive OperationType where
  | insert : OperationType
  | update : OperationType
  | delete : OperationType
deriving Repr, DecidableEq

/-- `store.py` lines 14-20: the immutable document record. -/
structure Document where
  key : String
  value : JValue
  version : Int
  timestamp : Int
  transaction_id : Int
deriving Repr

/-- Kinds of Python exceptions the embedded code can raise. -/
inductive PyError where
  | attributeError (msg : String) : PyError
  | typeError (msg : String) : PyError
  | valueError (msg : String) : PyError
  | keyError : PyError
  | indexError : PyError
deriving Repr, DecidableEq

/-- Python dict lookup (`d[k]` / `k in d`): first (unique) binding. -/
def dictGet {α : Type} (d : List (String × α)) (k : String) : Option α :=
  match d with
  | [] => none
  | (k', v') :: rest => if k' = k then some v' else dictGet rest k

/-- Python dict assignment `d[k] = v`: update in place, else append. -/
def dictSet {α : Type} (d : List (String × α)) (k : String) (v : α) :
    List (String × α) :=
  match d with
  | [] => [(k, v)]
  | (k', v') :: rest => if k' = k then (k, v) :: rest else (k', v') :: dictSet rest k v

/-- Python `del d[k]` (keys are unique in a real dict, so removing every
binding with that key is equivalent). -/
def dictDel {α : Type} (d : List (String × α)) (k : String) :
    List (String × α) :=
  d.filter (fun p => p.1 ≠ k)

/-- A per-key version log (`List[Document]`). -/
abbrev VersionLog := List Document

/-- A collection: key → version log. -/
abbrev Collection := List (String × VersionLog)

/-- The nested store mapping: collection name → collection. -/
abbrev StoreMap := List (String × Collection)

/-- `store.py` lines 84-89: the mutable state of `KeyValueStore`
(`storage_path` and the file system are not part of the logical state;
persistence is modelled separately by `_save_to_disk`/`_load_from_disk`). -/
structure KVState where
  store : StoreMap
  current_transaction_id : Int
  highest_removed_tombstone_id : Int
deriving Repr

/-- A fresh store with no snapshot file on disk (`KeyValueStore()`): empty
store, counter 0, watermark 0. -/
def initState : KVState := ⟨[], 0, 0⟩

/-- `store.py` lines 132-135: `_get_next_transaction_id`. Returns
`current_transaction_id + 1` after advancing the counter. -/
def _get_next_transaction_id (s : KVState) : Int × KVState :=
  (s.current_transaction_id + 1, { s with current_transaction_id := s.current_transaction_id + 1 })

/-- `store.py` lines 137-154: `upsert`.  The wall-clock `time.time()` call is
modelled by the explicit argument `now`. -/
def upsert (s : KVState) (collection key : String) (value : JValue) (now : Int) :
    Document × KVState :=
  let coll := (dictGet s.store collection).getD []
  let log := (dictGet coll key).getD []
  let version : Int := (log.length : Int) + 1
  let (txid, s') := _get_next_transaction_id s
  let doc : Document := ⟨key, value, version, now, txid⟩
  (doc, { s' with store := dictSet s'.store collection (dictSet coll key (log ++ [doc])) })

/-- `store.py` lines 197-212: `delete`.  Appends a tombstone when the key
exists, else returns `false` without touching the state. -/
def delete (s : KVState) (collection key : String) (now : Int) : Bool × KVState :=
  match dictGet s.store collection with
  | none => (false, s)
  | some coll =>
    match dictGet coll key with
    | none => (false, s)
    | some log =>
      let version : Int := (log.length : Int) + 1
      let (txid, s') := _get_next_transaction_id s
      let tombstone : Document := ⟨key, JValue.null, version, now, txid⟩
      (true, { s' with store := dictSet s'.store collection (dictSet coll key (log ++ [tombstone])) })

/-- `True` iff the value is `None`/JSON null (a tombstone marker). -/
def isNullVal : JValue → Bool
  | .null => true
  | _ => false

/-- `store.py` lines 156-167: `_infer_operation`.  The null-value test comes
first, so a tombstone at version 1 is still a delete. -/
def _infer_operation (doc : Document) : OperationType :=
  if isNullVal doc.value then .delete
  else if doc.version = 1 then .insert
  else .update

/-- `store.py` lines 214-230: `get` (namespaced as the Python method
`KeyValueStore.get` is, avoiding the ambient `MonadState.get`). -/
def KVState.get (s : KVState) (collection key : String) (version : Option Int) :
    Option Document :=
  match dictGet s.store collection with
  | none => none
  | some coll =>
    match dictGet coll key with
    | none => none
    | some log =>
      if log.isEmpty then none
      else
        match version with
        | none =>
          match log.getLast? with
          | some latest => if isNullVal latest.value then none else some latest
          | none => none
        | some v =>
          match log.find? (fun d => d.version = v) with
          | some d => if isNullVal d.value then none else some d
          | none => none

/-- `store.py` lines 328-348: `evict`.  The watermark is advanced to the last
record's transaction id before the whole log (and, if it becomes empty, the
collection) is removed.  (On an empty log Python would raise `IndexError` at
`[-1]`; that branch is unreachable because every log in a reachable store is
nonempty, and is modelled as leaving the state unchanged.) -/
def evict (s : KVState) (collection key : String) : Bool × KVState :=
  match dictGet s.store collection with
  | none => (false, s)
  | some coll =>
    match dictGet coll key with
    | none => (false, s)
    | some log =>
      match log.getLast? with
      | none => (false, s)
      | some lastDoc =>
        let wm := if lastDoc.transaction_id > s.highest_removed_tombstone_id
                  then lastDoc.transaction_id else s.highest_removed_tombstone_id
        let coll' := dictDel coll key
        let store' := if coll'.isEmpty then dictDel s.store collection
                      else dictSet s.store collection coll'
        (true, { s with store := store', highest_removed_tombstone_id := wm })

/-- `store.py` lines 232-275: `garbage_collect`.  The loop runs
`for key in self.store: versions = self.store[key]; versions.sort(...)`,
but `self.store` maps collection names to *dicts* (key → log), so on the very
first iteration of a nonempty store `versions` is a dict and
`versions.sort(...)` raises `AttributeError: 'dict' object has no attribute
'sort'` before any mutation happens.  On an empty store the loop body never
runs and the function returns 0.  The parameters are therefore never used. -/
def garbage_collect (s : KVState) (max_versions : Nat := 1)
    (max_age_seconds : Option ℚ := none) : Except PyError (Nat × KVState) :=
  let _ := max_versions
  let _ := max_age_seconds
  if s.store.isEmpty then .ok (0, s)
  else .error (.attributeError "'dict' object has no attribute 'sort'")

/-- Result of `store.py` `list_documents` (lines 277-295).  With
`latest_only=False` the function returns `self.store.copy()`: the *nested*
collection → key → log mapping, not a key → log mapping.  With
`latest_only=True` it evaluates `versions[-1]` where `versions` is a
collection *dict*; `dict[-1]` raises `KeyError: -1` for any nonempty
collection, and yields `None` for an empty one. -/
inductive ListDocsResult where
  | full (m : StoreMap) : ListDocsResult
  | latestMap (m : List (String × Option Document)) : ListDocsResult
deriving Repr

/-- `store.py` lines 277-295: `list_documents`.  Note the signature: it takes
no collection argument, although `http.py` line 163 calls it with one. -/
def list_documents (s : KVState) (latest_only : Bool := false) :
    Except PyError ListDocsResult :=
  if latest_only then
    if s.store.any (fun p => ¬ p.2.isEmpty) then .error .keyError
    else .ok (.latestMap (s.store.map (fun p => (p.1, none))))
  else .ok (.full s.store)

/-- `store.py` lines 306-326: `query_documents`.  Its first statement
evaluates `self.query_parser.parse_query(...)`, but `KeyValueStore.__init__`
never assigns `self.query_parser`, so every call raises `AttributeError`. -/
def query_documents (s : KVState) (where_clause : String)
    (latest_only : Bool := false) : Except PyError ListDocsResult :=
  let _ := s
  let _ := where_clause
  let _ := latest_only
  .error (.attributeError "'KeyValueStore' object has no attribute 'query_parser'")

/-- All documents of one collection, in key-insertion order then log order
(the iteration `for versions in self.store[col].values(): for doc in versions`). -/
def collDocs (coll : Collection) : List Document :=
  coll.flatMap (fun q => q.2)

/-- Python truthiness of the optional `where`/`collection` string parameters:
`None` and `""` are falsy. -/
def strTruthy : Option String → Bool
  | none => false
  | some s => s ≠ ""

/-- The documents scanned by `get_changes_after` (lines 179-185):
`collections = [collection] if collection else self.store.keys()`, skipping
absent names.  An empty-string collection filter is falsy and scans all. -/
def allDocsScanned (s : KVState) (collection : Option String) : List Document :=
  let cols : List String :=
    if strTruthy collection then [collection.getD ""] else s.store.map (fun p => p.1)
  cols.flatMap (fun c =>
    match dictGet s.store c with
    | some coll => collDocs coll
    | none => [])

/-- Stable sort of the `(doc, operation)` pairs by ascending transaction id:
the model of `changes.sort(key=lambda x: x[0].transaction_id)`. -/
def pySortPairs (l : List (Document × OperationType)) : List (Document × OperationType) :=
  List.insertionSort (fun a b => a.1.transaction_id ≤ b.1.transaction_id) l

/-- Stable sort of documents by ascending transaction id (used to state the
canonical feed order). -/
def pySortDocs (l : List Document) : List Document :=
  List.insertionSort (fun a b => a.transaction_id ≤ b.transaction_id) l

/-- `store.py` lines 169-195: `get_changes_after`.  When a truthy `where`
string is given, the body evaluates `self.query_parser.parse_query(where)` as
soon as the first scanned record passes the transaction-id filter — and
`self.query_parser` does not exist, so the call raises `AttributeError`
(`__init__` never assigns it).  Without a truthy `where` the function filters,
sorts stably by transaction id, and truncates to `limit` (the HTTP layer
restricts `limit` to 1..100, hence `limit : Nat`). -/
def get_changes_after (s : KVState) (transaction_id : Int) (limit : Nat := 2)
    (whereQ : Option String := none) (collection : Option String := none) :
    Except PyError (List (Document × OperationType)) :=
  let docs := allDocsScanned s collection
  if strTruthy whereQ && docs.any (fun d => transaction_id < d.transaction_id) then
    .error (.attributeError "'KeyValueStore' object has no attribute 'query_parser'")
  else
    .ok (((pySortPairs ((docs.filter (fun d => transaction_id < d.transaction_id)).map
      (fun d => (d, _infer_operation d))))).take limit)

/-- `http.py` lines 72-78: the change-feed response body. -/
structure ChangesResponse where
  changes : List (Document × OperationType)
  max_transaction_id : Int
  needs_rollback : Bool
deriving Repr

/-- `http.py` lines 209-242: the `GET /changes` handler.  The rollback guard
is evaluated before the scan; otherwise the result of `get_changes_after` is
wrapped (an uncaught `AttributeError` from the `where` path becomes a 500). -/
def http_get_changes (s : KVState) (start : Int) (limit : Nat := 2)
    (whereQ : Option String := none) (collection : Option String := none) :
    Except PyError ChangesResponse :=
  if start < s.highest_removed_tombstone_id then
    .ok ⟨[], s.current_transaction_id, true⟩
  else
    match get_changes_after s start limit whereQ collection with
    | .ok changes => .ok ⟨changes, s.current_transaction_id, false⟩
    | .error e => .error e

/-- An entry of the persisted snapshot file: either a serialised collection or
the reserved integer field. -/
inductive SnapEntry where
  | table (coll : Collection) : SnapEntry
  | intVal (n : Int) : SnapEntry
deriving Repr

/-- `store.py` lines 116-130: `_save_to_disk`.  The JSON object is built from
the store and then `data['last_transaction_id'] = ...` is assigned into the
*same* dict — overwriting any collection that happens to carry that name. -/
def _save_to_disk (s : KVState) : List (String × SnapEntry) :=
  dictSet (s.store.map (fun p => (p.1, SnapEntry.table p.2)))
    "last_transaction_id" (.intVal s.current_transaction_id)

/-- Parse the snapshot entries back into a store map; `none` models the
`except` branch of `_load_from_disk` (any malformed entry). -/
def parseSnapshot (file : List (String × SnapEntry)) : Option StoreMap :=
  match file with
  | [] => some []
  | (k, .table coll) :: rest => (parseSnapshot rest).map (fun m => (k, coll) :: m)
  | (_, .intVal _) :: _ => none

/-- `store.py` lines 91-114: `_load_from_disk` (as run by `__init__` on an
existing file).  The reserved key is filtered out of the document data, the
counter is restored from it (default 0), and the watermark is the fresh 0
from `__init__`; a load error resets the store to empty. -/
def _load_from_disk (file : List (String × SnapEntry)) : KVState :=
  let doc_data := file.filter (fun p => p.1 ≠ "last_transaction_id")
  match parseSnapshot doc_data with
  | some m =>
    { store := m
      current_transaction_id :=
        match dictGet file "last_transaction_id" with
        | some (.intVal n) => n
        | _ => 0
      highest_removed_tombstone_id := 0 }
  | none => ⟨[], 0, 0⟩

/-! ## Operation traces and ghost history

Write operations of the engine, used to state reachability (`runFrom
initState ops`) and the "sequence of all records ever appended"
(`histFrom`).  `gcW` is included for completeness: as proved above,
`garbage_collect` either returns on an empty store or raises before any
mutation, so it never changes the logical state. -/

/-- A write operation with its wall-clock timestamp argument. -/
inductive WriteOp where
  | upsertW (c k : String) (v : JValue) (t : Int) : WriteOp
  | deleteW (c k : String) (t : Int) : WriteOp
  | evictW (c k : String) : WriteOp
  | gcW (maxVersions : Nat) : WriteOp

/-- State transition of one write operation (return values discarded). -/
def applyOp (s : KVState) : WriteOp → KVState
  | .upsertW c k v t => (upsert s c k v t).2
  | .deleteW c k t => (delete s c k t).2
  | .evictW c k => (evict s c k).2
  | .gcW mv =>
    match garbage_collect s mv none with
    | .ok (_, s') => s'
    | .error _ => s

/-- Run a sequence of write operations. -/
def runFrom (s : KVState) : List WriteOp → KVState
  | [] => s
  | op :: ops => runFrom (applyOp s op) ops

/-- The records appended to the store by a single operation, tagged with
their collection name (ghost history). -/
def appendedBy (s : KVState) : WriteOp → List (String × Document)
  | .upsertW c k v t => [(c, (upsert s c k v t).1)]
  | .deleteW c k t =>
    match dictGet s.store c with
    | none => []
    | some coll =>
      match dictGet coll k with
      | none => []
      | some log => [(c, ⟨k, JValue.null, (log.length : Int) + 1, t, s.current_transaction_id + 1⟩)]
  | .evictW _ _ => []
  | .gcW _ => []

/-- All records ever appended along a run, oldest first (ghost history). -/
def histFrom (s : KVState) : List WriteOp → List (String × Document)
  | [] => []
  | op :: ops => appendedBy s op ++ histFrom (applyOp s op) ops

/-- All records currently in the store, tagged with their collection, in
scan order. -/
def allPairs (s : KVState) : List (String × Document) :=
  s.store.flatMap (fun p => p.2.flatMap (fun q => q.2.map (fun d => (p.1, d))))

/-- `[a, a+1, ..., a+n-1]` over `Int`. -/
def intRange (a : Int) : Nat → List Int
  | 0 => []
  | n + 1 => a :: intRange (a + 1) n

/-- The version log currently stored under `(collection, key)` (empty if
absent). -/
def logOf (s : KVState) (collection key : String) : VersionLog :=
  (dictGet ((dictGet s.store collection).getD []) key).getD []

/-! ## Predicate engine: Python value semantics

`QueryParser.OPERATORS` (`store.py` lines 24-36) is a table of Python
lambdas; their behaviour is that of Python's rich comparison on the JSON
values in play.  Numbers (`int`, `float`, and `bool`, which is an `int`
subclass) compare numerically across types; strings compare
lexicographically by code point; lists compare lexicographically, skipping
`==`-equal prefixes; every other combination of `<`/`<=`/`>`/`>=` operands
(`None`, `dict`, or mixed types such as `str` vs `int`) raises `TypeError`. -/

/-- Numeric view of a Python value (`bool` is an `int` subclass: `True == 1`). -/
def toNum? : JValue → Option ℚ
  | .bool b => some (if b then 1 else 0)
  | .int n => some (n : ℚ)
  | .float q => some q
  | _ => none

/-- Python `==` on the embedded values.  Dict equality compares the key sets
and their values (keys in a JSON object are unique). -/
def pyEq : JValue → JValue → Bool
  | .null, .null => true
  | .str a, .str b => a = b
  | .arr xs, .arr ys =>
      xs.length = ys.length &&
      (xs.zip ys).attach.all (fun p => pyEq p.1.1 p.1.2)
  | .obj fa, .obj fb =>
      fa.length = fb.length &&
      fa.attach.all (fun p =>
        match dictGet fb p.1.1 with
        | some w => pyEq p.1.2 w
        | none => false)
  | x, y =>
      match toNum? x, toNum? y with
      | some a, some b => a = b
      | _, _ => false
termination_by x _ => sizeOf x
decreasing_by
  · have hm : p.1.1 ∈ xs := (List.of_mem_zip p.2).1
    have := List.sizeOf_lt_of_mem hm
    simp only [JValue.arr.sizeOf_spec]
    omega
  · have hm : p.1 ∈ fa := p.2
    have h1 := List.sizeOf_lt_of_mem hm
    have h2 : sizeOf p.1.2 < sizeOf p.1 := by
      obtain ⟨a, b⟩ := p.1
      simp only [Prod.mk.sizeOf_spec]
      omega
    simp only [JValue.obj.sizeOf_spec]
    omega

/-- Python `x < y` on the embedded values. -/
def pyLt : JValue → JValue → Except PyError Bool
  | .str a, .str b => .ok (decide (a < b))
  | .arr [], .arr [] => .ok false
  | .arr [], .arr (_ :: _) => .ok true
  | .arr (_ :: _), .arr [] => .ok false
  | .arr (x :: xs), .arr (y :: ys) =>
      if pyEq x y then pyLt (.arr xs) (.arr ys) else pyLt x y
  | x, y =>
      match toNum? x, toNum? y with
      | some a, some b => .ok (decide (a < b))
      | _, _ => .error (.typeError "unorderable types")
termination_by x _ => sizeOf x
decreasing_by
  · simp only [JValue.arr.sizeOf_spec]
    simp only [List.cons.sizeOf_spec]
    omega
  · simp only [JValue.arr.sizeOf_spec, List.cons.sizeOf_spec]
    omega

/-- Python `x <= y` on the embedded values. -/
def pyLe : JValue → JValue → Except PyError Bool
  | .str a, .str b => .ok (decide (a ≤ b))
  | .arr [], .arr _ => .ok true
  | .arr (_ :: _), .arr [] => .ok false
  | .arr (x :: xs), .arr (y :: ys) =>
      if pyEq x y then pyLe (.arr xs) (.arr ys) else pyLt x y
  | x, y =>
      match toNum? x, toNum? y with
      | some a, some b => .ok (decide (a ≤ b))
      | _, _ => .error (.typeError "unorderable types")
termination_by x _ => sizeOf x
decreasing_by
  simp only [JValue.arr.sizeOf_spec, List.cons.sizeOf_spec]
  omega

/-- `True` iff `needle` occurs as a contiguous substring of `hay`. -/
def substrOccurs (needle hay : List Char) : Bool :=
  if needle.isPrefixOf hay then true
  else
    match hay with
    | [] => false
    | _ :: t => substrOccurs needle t

/-- Python `x in y` as used by the `IN` operator.  `parse_value` always
produces a list of strings for `IN` literals; string and dict containers are
modelled for completeness (string subscripting aside, see `applyOperator`). -/
def pyIn (x y : JValue) : Except PyError Bool :=
  match y with
  | .arr l => .ok (l.any (fun e => pyEq x e))
  | .str t =>
    match x with
    | .str s => .ok (substrOccurs s.data t.data)
    | _ => .error (.typeError "a string is required")
  | .obj f =>
    match x with
    | .arr _ => .error (.typeError "unhashable type")
    | .obj _ => .error (.typeError "unhashable type")
    | .str s => .ok ((dictGet f s).isSome)
    | _ => .ok false
  | _ => .error (.typeError "argument is not iterable")

/-- The operator tags of `QueryParser.OPERATORS`. -/
inductive PyOp where
  | eqOp | neOp | gtOp | geOp | ltOp | leOp
  | inOp | notInOp | isNullOp | isNotNullOp | betweenOp
deriving Repr, DecidableEq

/-- `store.py` lines 24-36: the operator table, keyed exactly as in the
source (`OPERATORS[operator]` raises `KeyError` for any other key). -/
def OPERATORS (key : List Char) : Option PyOp :=
  if key = "=".data then some .eqOp
  else if key = "!=".data then some .neOp
  else if key = ">".data then some .gtOp
  else if key = ">=".data then some .geOp
  else if key = "<".data then some .ltOp
  else if key = "<=".data then some .leOp
  else if key = "IN".data then some .inOp
  else if key = "NOT IN".data then some .notInOp
  else if key = "IS NULL".data then some .isNullOp
  else if key = "IS NOT NULL".data then some .isNotNullOp
  else if key = "BETWEEN".data then some .betweenOp
  else none

/-- Application of one `OPERATORS` lambda to the resolved field value `x`
and the parsed literal `y`.  `BETWEEN` models Python's chained
`y[0] <= x <= y[1]` including its short-circuit (the second comparison and
the `y[1]` subscript are only evaluated when the first returns true); only
list literals are modelled as subscriptable, which is the only shape
`parse_query` produces for `BETWEEN`. -/
def applyOperator : PyOp → JValue → JValue → Except PyError Bool
  | .eqOp, x, y => .ok (pyEq x y)
  | .neOp, x, y => .ok (!pyEq x y)
  | .gtOp, x, y => pyLt y x
  | .geOp, x, y => pyLe y x
  | .ltOp, x, y => pyLt x y
  | .leOp, x, y => pyLe x y
  | .inOp, x, y => pyIn x y
  | .notInOp, x, y => (pyIn x y).map (fun b => !b)
  | .isNullOp, x, _ => .ok (isNullVal x)
  | .isNotNullOp, x, _ => .ok (!isNullVal x)
  | .betweenOp, x, y =>
    match y with
    | .arr (lo :: hi :: _) => do
      let b ← pyLe lo x
      if b then pyLe x hi else pure false
    | .arr [lo] => do
      let b ← pyLe lo x
      if b then .error .indexError else pure false
    | .arr [] => .error .indexError
    | _ => .error (.typeError "object is not subscriptable")

/-! ## Predicate engine: the query string parser

`QueryParser.parse_query` (`store.py` lines 58-81) tries four anchored
regular expressions in order (with `re.IGNORECASE`) on the stripped query.
They are embedded as deterministic matchers.  This is exact: in each
pattern the greedy sub-matches are cut at characters outside their class
(`\w`/`.` vs `\s` vs `[=!<>]` vs keyword letters), so backtracking can
never produce a different parse — with two exceptions that are modelled
explicitly: the optional `NOT`/`IS NOT` branches (tried greedily first,
and shown disjoint from the non-`NOT` continuation), and the `\s*` before
the final `([^=!<>]+)` group of the comparison pattern, which gives back
exactly one space when the remainder would otherwise be empty. -/

/-- ASCII model of the regex class `\w`, i.e. `[A-Za-z0-9_]` by code point
(Python also accepts non-ASCII word characters; the queries in play are
ASCII). -/
def isWordChar (c : Char) : Bool :=
  (65 ≤ c.toNat && c.toNat ≤ 90) || (97 ≤ c.toNat && c.toNat ≤ 122)
    || (48 ≤ c.toNat && c.toNat ≤ 57) || c.toNat = 95

/-- The regex class `\s` (ASCII part: space, tab, newline, carriage
return, vertical tab, form feed). -/
def isSpaceChar (c : Char) : Bool :=
  c.toNat = 32 || c.toNat = 9 || c.toNat = 10 || c.toNat = 13
    || c.toNat = 11 || c.toNat = 12

/-- The regex class `[=!<>]` by code point (61, 33, 60, 62). -/
def isCmpChar (c : Char) : Bool :=
  c.toNat = 61 || c.toNat = 33 || c.toNat = 60 || c.toNat = 62

/-- The regex class `\d` = `[0-9]` by code point. -/
def isDigitChar (c : Char) : Bool := 48 ≤ c.toNat && c.toNat ≤ 57

/-- Python `str.strip()` (both ends). -/
def pyStrip (s : List Char) : List Char :=
  ((s.dropWhile isSpaceChar).reverse.dropWhile isSpaceChar).reverse

/-- Python `str.split(sep)` for a one-character separator: no collapsing of
adjacent separators, and the empty string splits to `[""]`. -/
def pySplitChar (sep : Char) : List Char → List (List Char)
  | [] => [[]]
  | c :: rest =>
    if c = sep then [] :: pySplitChar sep rest
    else
      match pySplitChar sep rest with
      | seg :: segs => (c :: seg) :: segs
      | [] => [[c]]

/-- Greedy match of `(?:\.\w+)*`: returns the consumed extension and the
remainder. -/
def munchDotRuns : List Char → List Char × List Char
  | '.' :: rest =>
    let w := rest.takeWhile isWordChar
    if w.isEmpty then ([], '.' :: rest)
    else
      let p := munchDotRuns (rest.dropWhile isWordChar)
      ('.' :: (w ++ p.1), p.2)
  | s => ([], s)
termination_by s => s.length
decreasing_by
  simp only [List.length_cons]
  have := List.Sublist.length_le (List.dropWhile_sublist (p := isWordChar) (l := rest))
  omega

/-- Greedy match of the path group `(\w+(?:\.\w+)*)`. -/
def munchPath (s : List Char) : Option (List Char × List Char) :=
  let w := s.takeWhile isWordChar
  if w.isEmpty then none
  else
    let p := munchDotRuns (s.dropWhile isWordChar)
    some (w ++ p.1, p.2)

/-- `\s+`: at least one whitespace character, greedy (exact: every token
following `\s+` in the patterns starts with a non-space character). -/
def spaces1 (s : List Char) : Option (List Char × List Char) :=
  let sp := s.takeWhile isSpaceChar
  if sp.isEmpty then none else some (sp, s.dropWhile isSpaceChar)

/-- `\d+`, greedy. -/
def digits1 (s : List Char) : Option (List Char × List Char) :=
  let d := s.takeWhile isDigitChar
  if d.isEmpty then none else some (d, s.dropWhile isDigitChar)

/-- Case-insensitive literal keyword (given uppercase); returns the
remainder. -/
def matchCI : List Char → List Char → Option (List Char)
  | [], s => some s
  | k :: ks, c :: cs => if c.toUpper = k then matchCI ks cs else none
  | _ :: _, [] => none

/-- Case-insensitive literal keyword, also returning the consumed original
characters (the captured group keeps the original spelling). -/
def matchCIcap : List Char → List Char → Option (List Char × List Char)
  | [], s => some ([], s)
  | k :: ks, c :: cs =>
    if c.toUpper = k then (matchCIcap ks cs).map (fun p => (c :: p.1, p.2)) else none
  | _ :: _, [] => none

/-- Tail of the BETWEEN pattern after the path group:
`\s+(BETWEEN)\s+(\d+)\s+AND\s+(\d+)`; returns (lo digits, hi digits). -/
def restBetween (r0 : List Char) : Option (List Char × List Char) := do
  let (_, r1) ← spaces1 r0
  let r2 ← matchCI "BETWEEN".data r1
  let (_, r3) ← spaces1 r2
  let (lo, r4) ← digits1 r3
  let (_, r5) ← spaces1 r4
  let r6 ← matchCI "AND".data r5
  let (_, r7) ← spaces1 r6
  let (hi, _) ← digits1 r7
  pure (lo, hi)

/-- Pattern `(\w+(?:\.\w+)*)\s+(BETWEEN)\s+(\d+)\s+AND\s+(\d+)`
(`store.py` line 63); returns (path, lo digits, hi digits). -/
def patternBetween (s : List Char) : Option (List Char × List Char × List Char) := do
  let (path, r0) ← munchPath s
  let (lo, hi) ← restBetween r0
  pure (path, lo, hi)

/-- Pattern `(\w+(?:\.\w+)*)\s+((?:NOT\s+)?IN)\s+(\([^)]+\))` (`store.py`
line 65); returns (path, captured operator text, captured parenthesised
list).  The `NOT` branch is tried first; when it matches `NOT` followed by
whitespace and `IN`, the alternative (plain `IN`) cannot also match, so no
further backtracking is possible. -/
def restInList (r0 : List Char) : Option (List Char × List Char) := do
  let (_, r1) ← spaces1 r0
  let (opTxt, r2) ←
    (do
      let (notTxt, ra) ← matchCIcap "NOT".data r1
      let (sp, rb) ← spaces1 ra
      let (inTxt, rc) ← matchCIcap "IN".data rb
      pure (notTxt ++ sp ++ inTxt, rc)) <|>
    matchCIcap "IN".data r1
  let (_, r3) ← spaces1 r2
  match r3 with
  | '(' :: r4 =>
    let body := r4.takeWhile (fun c => c ≠ ')')
    if body.isEmpty then none
    else
      match r4.dropWhile (fun c => c ≠ ')') with
      | ')' :: _ => pure (opTxt, '(' :: (body ++ [')']))
      | _ => none
  | _ => none

/-- The IN/NOT IN pattern assembled from path group and tail. -/
def patternInList (s : List Char) : Option (List Char × List Char × List Char) := do
  let (path, r0) ← munchPath s
  let (opTxt, parenTxt) ← restInList r0
  pure (path, opTxt, parenTxt)

/-- Pattern `(\w+(?:\.\w+)*)\s+(IS(?:\s+NOT)?\s+NULL)` (`store.py` line
67); returns (path, captured operator text).  The optional `\s+NOT` and
the mandatory `\s+NULL` consume the same maximal whitespace run, and
`NOT`/`NULL` differ at their second letter, so the greedy choice is again
exact. -/
def restIsNull (r0 : List Char) : Option (List Char) := do
  let (_, r1) ← spaces1 r0
  let (isTxt, r2) ← matchCIcap "IS".data r1
  let (midTxt, r3) ←
    (do
      let (sp1, ra) ← spaces1 r2
      let (notTxt, rb) ← matchCIcap "NOT".data ra
      pure (sp1 ++ notTxt, rb)) <|> pure (([] : List Char), r2)
  let (sp2, r4) ← spaces1 r3
  let (nullTxt, _) ← matchCIcap "NULL".data r4
  pure (isTxt ++ midTxt ++ sp2 ++ nullTxt)

/-- The IS [NOT] NULL pattern assembled from path group and tail. -/
def patternIsNull (s : List Char) : Option (List Char × List Char) := do
  let (path, r0) ← munchPath s
  let opTxt ← restIsNull r0
  pure (path, opTxt)

/-- Pattern `(\w+(?:\.\w+)*)\s*([=!<>]+)\s*([^=!<>]+)` (`store.py` line
69); returns (path, operator characters, literal text).  When the maximal
`\s*` leaves nothing for the final group, the regex backtracks one space,
capturing a single-space literal. -/
def restCmp (r0 : List Char) : Option (List Char × List Char) :=
  let r1 := r0.dropWhile isSpaceChar
  let op := r1.takeWhile isCmpChar
  if op.isEmpty then none
  else
    let r2 := r1.dropWhile isCmpChar
    let sp := r2.takeWhile isSpaceChar
    let t := (r2.dropWhile isSpaceChar).takeWhile (fun c => ¬ isCmpChar c)
    if ¬ t.isEmpty then some (op, t)
    else if ¬ sp.isEmpty then some (op, [' '])
    else none

/-- The comparison pattern assembled from path group and tail. -/
def patternCmp (s : List Char) : Option (List Char × List Char × List Char) := do
  let (path, r0) ← munchPath s
  let (op, lit) ← restCmp r0
  pure (path, op, lit)

/-- Uppercasing (`str.upper()`, ASCII model). -/
def pyUpper (s : List Char) : List Char := s.map Char.toUpper

/-- `str.strip("'\"")`: drop quote characters (code points 39 and 34) from
both ends. -/
def stripQuotes (s : List Char) : List Char :=
  let isQ := fun (c : Char) => c.toNat = 39 || c.toNat = 34
  ((s.dropWhile isQ).reverse.dropWhile isQ).reverse

/-- Value of a digit run. -/
def digitsToNat (ds : List Char) : Nat :=
  ds.foldl (fun acc c => acc * 10 + (c.toNat - 48)) 0

/-- Python `int(str)`: surrounding whitespace and an optional sign are
accepted (underscore separators and non-ASCII digits are not modelled; no
query in play uses them). -/
def pyInt? (s : List Char) : Option Int :=
  let t := pyStrip s
  match t with
  | '-' :: ds =>
    if !ds.isEmpty && ds.all isDigitChar then some (-(digitsToNat ds : Int)) else none
  | '+' :: ds =>
    if !ds.isEmpty && ds.all isDigitChar then some ((digitsToNat ds : Nat) : Int) else none
  | ds =>
    if !ds.isEmpty && ds.all isDigitChar then some ((digitsToNat ds : Nat) : Int) else none

/-- Python `float(str)` for the forms `[sign] digits [. digits]` with at
least one digit (exponents, `inf`/`nan` are not modelled; no claim
exercises them). -/
def pyFloat? (s : List Char) : Option ℚ :=
  let core := fun (u : List Char) =>
    let ip := u.takeWhile isDigitChar
    match u.dropWhile isDigitChar with
    | [] => if ip.isEmpty then none else some ((digitsToNat ip : ℚ))
    | '.' :: fp =>
      if fp.all isDigitChar && !(ip.isEmpty && fp.isEmpty) then
        some ((digitsToNat ip : ℚ) + (digitsToNat fp : ℚ) / ((10 : ℚ) ^ fp.length))
      else none
    | _ => none
  let t := pyStrip s
  match t with
  | '-' :: u => (core u).map Neg.neg
  | '+' :: u => core u
  | u => core u

/-- `store.py` lines 38-56: `parse_value`. -/
def parse_value (value_str : List Char) : JValue :=
  if pyUpper value_str = "NULL".data then .null
  else if value_str.head? = some '(' && value_str.getLast? = some ')' then
    .arr ((pySplitChar ',' ((value_str.drop 1).dropLast)).map
      (fun v => .str (String.mk (stripQuotes (pyStrip v)))))
  else if value_str.contains '.' then
    match pyFloat? value_str with
    | some q => .float q
    | none => .str (String.mk (stripQuotes value_str))
  else
    match pyInt? value_str with
    | some n => .int n
    | none => .str (String.mk (stripQuotes value_str))

/-- `store.py` lines 58-81: `parse_query`.  The `IS [NOT] NULL` pattern
captures only two groups, so the unpacking `field, operator, value =
match.groups()` raises `ValueError` whenever it matches. -/
def parse_query (query : List Char) : Except PyError (List Char × List Char × JValue) :=
  let s := pyStrip query
  match patternBetween s with
  | some (path, lo, hi) =>
    .ok (path, "BETWEEN".data, .arr [.int ((digitsToNat lo : Nat) : Int), .int ((digitsToNat hi : Nat) : Int)])
  | none =>
    match patternInList s with
    | some (path, opTxt, parenTxt) => .ok (path, pyUpper opTxt, parse_value parenTxt)
    | none =>
      match patternIsNull s with
      | some _ => .error (.valueError "not enough values to unpack")
      | none =>
        match patternCmp s with
        | some (path, op, lit) => .ok (path, pyUpper op, parse_value lit)
        | none => .error (.valueError "Invalid query syntax")

/-- Resolution of a dotted path against a document's value tree
(`walkPath v segs`): at each step a non-object node or missing key yields
`null`. -/
def walkPath : JValue → List (List Char) → JValue
  | v, [] => v
  | .obj fields, p :: rest =>
    match fields.find? (fun kv => kv.1.data = p) with
    | some kv => walkPath kv.2 rest
    | none => .null
  | _, _ :: _ => .null

/-- `store.py` lines 297-304: `_get_field_value`.  The path is split on
`.` and the *first* segment is dropped unconditionally (`[1:]`), whatever
it is. -/
def _get_field_value (doc : Document) (field_path : List Char) : JValue :=
  walkPath doc.value (pySplitChar '.' field_path).tail

/-- The predicate-evaluation pipeline the source wires together in
`get_changes_after` lines 188-190 and `query_documents` lines 310-317
(were `self.query_parser` to exist): parse the clause, look the operator
up in `OPERATORS` (`KeyError` if the captured operator text is not a key),
resolve the field, and apply the operator lambda. -/
def evalWhereClause (doc : Document) (whereClause : List Char) : Except PyError Bool :=
  match parse_query whereClause with
  | .error e => .error e
  | .ok (field, opKey, lit) =>
    match OPERATORS opKey with
    | none => .error .keyError
    | some op => applyOperator op (_get_field_value doc field) lit

/-! ## Specification-side definitions -/

/-- `'.'.join` over path segments: builds the dotted paths over which the
claims about the query parser quantify. -/
def joinDots : List (List Char) → List Char
  | [] => []
  | [seg] => seg
  | seg :: rest => seg ++ '.' :: joinDots rest

/-- The records of one collection tagged with its name, in scan order. -/
def collPairs (c : String) (coll : Collection) : List (String × Document) :=
  coll.flatMap (fun q => q.2.map (fun d => (c, d)))

/-- The scanned records as the *claims* describe them: the named
collection's records, or all records when no collection name is given
(unlike the code, an empty-string name means the collection named `""`). -/
def specScannedPairs (s : KVState) (collection : Option String) :
    List (String × Document) :=
  match collection with
  | none => allPairs s
  | some c => (allPairs s).filter (fun p => p.1 = c)

/-- Whether a record tagged with collection `c` passes the code's
collection filter (Python truthiness: an empty-string filter is absent). -/
def collMatch (collection : Option String) (c : String) : Bool :=
  match collection with
  | none => true
  | some cf => if cf = "" then true else c = cf

/-- A collection filter that the claims' wording covers: absent, or a
nonempty name. -/
def collFilterOk : Option String → Bool
  | none => true
  | some c => c ≠ ""

/-- The post-`start` sequence of the feed in canonical order, computed from
the ghost history of *all* records ever appended along a run: the ascending-
transaction-id enumeration of every appended record with id above `start`
that passes the collection filter. -/
def postStartDocs (ops : List WriteOp) (start : Int) (collection : Option String) :
    List Document :=
  pySortDocs (((histFrom initState ops).filter
    (fun p => collMatch collection p.1 && start < p.2.transaction_id)).map
    (fun p => p.2))

/-- Store well-formedness, preserved by every operation from the initial
state: association-list keys are genuine dict keys (no duplicates), version
logs are dense from 1, transaction ids are strictly increasing within a log,
bounded by the allocator counter, and globally distinct. -/
structure StoreInv (s : KVState) : Prop where
  keysND : (s.store.map (fun p => p.1)).Nodup
  collND : ∀ p ∈ s.store, (p.2.map (fun q => q.1)).Nodup
  density : ∀ p ∈ s.store, ∀ q ∈ p.2,
    q.2.map (fun d => d.version) = intRange 1 q.2.length
  txChain : ∀ p ∈ s.store, ∀ q ∈ p.2,
    List.Chain' (fun a b => a < b) (q.2.map (fun d => d.transaction_id))
  txLe : ∀ p ∈ s.store, ∀ q ∈ p.2, ∀ d ∈ q.2,
    d.transaction_id ≤ s.current_transaction_id
  txND : ((allPairs s).map (fun p => p.2.transaction_id)).Nodup

/-- Reachability from a fresh store by write operations. -/
def Reachable (s : KVState) : Prop :=
  ∃ ops : List WriteOp, s = runFrom initState ops

/-! ## Basic lemmas about the dict embedding -/

theorem dictGet_dictSet_self {α : Type} (d : List (String × α)) (k : String) (v : α) :
    dictGet (dictSet d k v) k = some v := by
  induction d with
  | nil => simp [dictSet, dictGet]
  | cons p rest ih =>
    obtain ⟨k', v'⟩ := p
    by_cases h : k' = k
    · simp [dictSet, dictGet, h]
    · simp [dictSet, dictGet, h, ih]

theorem dictGet_dictSet_ne {α : Type} (d : List (String × α)) (k k' : String)
    (v : α) (h : k' ≠ k) : dictGet (dictSet d k v) k' = dictGet d k' := by
  induction d with
  | nil =>
    simp only [dictSet, dictGet]
    rw [if_neg (fun hh => h hh.symm)]
  | cons p rest ih =>
    obtain ⟨k₀, v₀⟩ := p
    by_cases h0 : k₀ = k
    · subst h0
      simp only [dictSet, if_pos rfl, dictGet]
      rw [if_neg (fun hh => h hh.symm), if_neg (fun hh => h hh.symm)]
    · simp only [dictSet, if_neg h0, dictGet]
      by_cases h1 : k₀ = k'
      · rw [if_pos h1, if_pos h1]
      · rw [if_neg h1, if_neg h1]
        exact ih

theorem dictGet_eq_none_iff {α : Type} (d : List (String × α)) (k : String) :
    dictGet d k = none ↔ k ∉ d.map (fun p => p.1) := by
  induction d with
  | nil => simp [dictGet]
  | cons p rest ih =>
    obtain ⟨k', v'⟩ := p
    by_cases h : k' = k
    · subst h
      simp [dictGet]
    · simp only [dictGet, if_neg h, List.map_cons, List.mem_cons]
      rw [ih, not_or]
      constructor
      · exact fun hk => ⟨fun hc => h hc.symm, hk⟩
      · exact fun hk => hk.2

theorem dictSet_of_get_none {α : Type} (d : List (String × α)) (k : String)
    (v : α) (h : dictGet d k = none) : dictSet d k v = d ++ [(k, v)] := by
  induction d with
  | nil => simp [dictSet]
  | cons p rest ih =>
    obtain ⟨k', v'⟩ := p
    by_cases h0 : k' = k
    · rw [show dictGet ((k', v') :: rest) k = some v' by simp [dictGet, h0]] at h
      exact absurd h (by simp)
    · simp only [dictGet, if_neg h0] at h
      simp [dictSet, h0, ih h]

theorem dictSet_split {α : Type} (d : List (String × α)) (k : String)
    (v w : α) (h : dictGet d k = some w) :
    ∃ d₁ d₂, d = d₁ ++ (k, w) :: d₂ ∧ (∀ p ∈ d₁, p.1 ≠ k) ∧
      dictSet d k v = d₁ ++ (k, v) :: d₂ := by
  induction d with
  | nil => simp [dictGet] at h
  | cons p rest ih =>
    obtain ⟨k', v'⟩ := p
    by_cases h0 : k' = k
    · subst h0
      have hv : v' = w := by
        rw [show dictGet ((k', v') :: rest) k' = some v' by simp [dictGet]] at h
        exact Option.some.inj h
      subst hv
      refine ⟨[], rest, by simp, by simp, ?_⟩
      simp [dictSet]
    · simp only [dictGet, if_neg h0] at h
      obtain ⟨d₁, d₂, he, hne, hs⟩ := ih h
      refine ⟨(k', v') :: d₁, d₂, by simp [he], ?_, ?_⟩
      · intro p hp
        rcases List.mem_cons.mp hp with hp | hp
        · simpa [hp] using h0
        · exact hne p hp
      · simp [dictSet, h0, hs]

theorem keys_dictSet_of_get_some {α : Type} (d : List (String × α)) (k : String)
    (v w : α) (h : dictGet d k = some w) :
    (dictSet d k v).map (fun p => p.1) = d.map (fun p => p.1) := by
  obtain ⟨d₁, d₂, he, _, hs⟩ := dictSet_split d k v w h
  rw [hs, he]
  simp

theorem dictDel_of_split {α : Type} (d₁ d₂ : List (String × α)) (k : String)
    (w : α) (hnd : ((d₁ ++ (k, w) :: d₂).map (fun p => p.1)).Nodup) :
    dictDel (d₁ ++ (k, w) :: d₂) k = d₁ ++ d₂ := by
  simp only [List.map_append, List.map_cons, List.nodup_append, List.nodup_cons] at hnd
  obtain ⟨hnd₁, ⟨hk₂, hnd₂⟩, hdisj⟩ := hnd
  have e₁ : d₁.filter (fun p => p.1 ≠ k) = d₁ := by
    rw [List.filter_eq_self]
    intro p hp
    have hm : p.1 ∈ d₁.map (fun q => q.1) := List.mem_map_of_mem _ hp
    have : p.1 ≠ k := by
      intro hc
      exact hdisj hm (by simp [hc])
    simpa using this
  have e₂ : d₂.filter (fun p => p.1 ≠ k) = d₂ := by
    rw [List.filter_eq_self]
    intro p hp
    have : p.1 ≠ k := by
      intro hc
      exact hk₂ (hc ▸ List.mem_map_of_mem _ hp)
    simpa using this
  simp only [dictDel, List.filter_append, List.filter_cons]
  rw [e₁, e₂]
  simp

/-! ## Claims C3 and C4: the flat-iteration bugs -/

/-- C3: the claim says `garbage_collect` visits every version log of every
collection, prunes each to the newest `max_versions`, and returns the
number of removed records.  The code instead iterates `self.store` as if it
were flat: evaluated on a store holding one collection with one one-record
log, `garbage_collect(max_versions=1)` raises
`AttributeError: 'dict' object has no attribute 'sort'` instead. -/
theorem garbage_collect_crashes_on_nonempty_store :
    garbage_collect ⟨[("users", [("u1", [⟨"u1", JValue.str "A", 1, 0, 1⟩])])], 1, 0⟩ 1 none
      = .error (.attributeError "'dict' object has no attribute 'sort'") := rfl

/-- C4: the claim says `list_documents(c, latest_only)` maps exactly the
keys of collection `c`.  The store method takes no collection argument
(calling it as the HTTP layer does raises `TypeError`), and its body treats
the nested store as flat: with `latest_only=true` it raises `KeyError: -1`
on any store with a nonempty collection, and with `latest_only=false` it
returns the collection-name → (key → log) nesting, not a key → log map. -/
theorem list_documents_flat_iteration_bug :
    list_documents ⟨[("users", [("u1", [⟨"u1", JValue.str "A", 1, 0, 1⟩])])], 1, 0⟩ true
      = .error .keyError
    ∧ list_documents ⟨[("users", [("u1", [⟨"u1", JValue.str "A", 1, 0, 1⟩])])], 1, 0⟩ false
      = .ok (.full [("users", [("u1", [⟨"u1", JValue.str "A", 1, 0, 1⟩])])]) :=
  ⟨rfl, rfl⟩

/-! ## Claim C9: `upsert` with a null value behaves as a tombstone -/

/-- C9: `upsert(c, k, null)` succeeds and appends a record that the public
interface treats exactly like a tombstone: versionless `get` is absent,
`get` at the record's version is absent, and the feed's derived operation
is `delete` — even at version 1 (the null test in `_infer_operation`
precedes the version test).  The hypothesis (no earlier record in the log
already carries the about-to-be-assigned version number) holds in every
reachable store by version density. -/
theorem upsert_null_is_tombstone (s : KVState) (c k : String) (t : Int)
    (hv : ∀ d ∈ logOf s c k, d.version ≠ ((logOf s c k).length : Int) + 1) :
    (upsert s c k JValue.null t).1.value = JValue.null
    ∧ logOf (upsert s c k JValue.null t).2 c k
        = logOf s c k ++ [(upsert s c k JValue.null t).1]
    ∧ _infer_operation (upsert s c k JValue.null t).1 = OperationType.delete
    ∧ KVState.get (upsert s c k JValue.null t).2 c k none = none
    ∧ KVState.get (upsert s c k JValue.null t).2 c k
        (some (upsert s c k JValue.null t).1.version) = none := by
  have hstore : (upsert s c k JValue.null t).2.store
      = dictSet s.store c (dictSet ((dictGet s.store c).getD []) k
          (logOf s c k ++ [(upsert s c k JValue.null t).1])) := by
    simp [upsert, _get_next_transaction_id, logOf]
  have hget1 : dictGet (upsert s c k JValue.null t).2.store c
      = some (dictSet ((dictGet s.store c).getD []) k
          (logOf s c k ++ [(upsert s c k JValue.null t).1])) := by
    rw [hstore]
    exact dictGet_dictSet_self _ _ _
  have hget2 : dictGet (dictSet ((dictGet s.store c).getD []) k
        (logOf s c k ++ [(upsert s c k JValue.null t).1])) k
      = some (logOf s c k ++ [(upsert s c k JValue.null t).1]) :=
    dictGet_dictSet_self _ _ _
  have hvalue : (upsert s c k JValue.null t).1.value = JValue.null := by
    simp [upsert, _get_next_transaction_id]
  have hversion : (upsert s c k JValue.null t).1.version
      = ((logOf s c k).length : Int) + 1 := by
    simp [upsert, _get_next_transaction_id, logOf]
  refine ⟨hvalue, ?_, ?_, ?_, ?_⟩
  · show (dictGet ((dictGet (upsert s c k JValue.null t).2.store c).getD []) k).getD []
        = logOf s c k ++ [(upsert s c k JValue.null t).1]
    rw [hget1, Option.getD_some, hget2, Option.getD_some]
  · simp [_infer_operation, hvalue, isNullVal]
  · simp only [KVState.get, hget1, hget2]
    rw [if_neg (by simp)]
    rw [List.getLast?_concat]
    simp [hvalue, isNullVal]
  · simp only [KVState.get, hget1, hget2]
    rw [if_neg (by simp)]
    have hnone : (logOf s c k).find?
        (fun d => d.version = (upsert s c k JValue.null t).1.version) = none := by
      rw [List.find?_eq_none]
      intro d hd
      simp only [decide_eq_true_eq]
      rw [hversion]
      exact hv d hd
    rw [List.find?_append, hnone]
    simp [hvalue, isNullVal]

/-- C9 witness: on a fresh store (empty log, so the appended tombstone has
version 1) the theorem applies with its hypothesis discharged by
computation. -/
theorem upsert_null_is_tombstone_witness :
    (upsert initState "c" "k" JValue.null 5).1.value = JValue.null
    ∧ logOf (upsert initState "c" "k" JValue.null 5).2 "c" "k"
        = logOf initState "c" "k" ++ [(upsert initState "c" "k" JValue.null 5).1]
    ∧ _infer_operation (upsert initState "c" "k" JValue.null 5).1 = OperationType.delete
    ∧ KVState.get (upsert initState "c" "k" JValue.null 5).2 "c" "k" none = none
    ∧ KVState.get (upsert initState "c" "k" JValue.null 5).2 "c" "k"
        (some (upsert initState "c" "k" JValue.null 5).1.version) = none :=
  upsert_null_is_tombstone initState "c" "k" 5
    (by intro d hd; simp [logOf, initState, dictGet] at hd)

/-! ## Claim C5: transaction-id allocation -/

theorem mem_intRange_lb {a x : Int} {n : Nat} (h : x ∈ intRange a n) : a ≤ x := by
  induction n generalizing a with
  | zero => simp [intRange] at h
  | succ n ih =>
    rw [intRange] at h
    rcases List.mem_cons.mp h with h | h
    · omega
    · have := ih h
      omega

theorem pairwise_lt_intRange (a : Int) (n : Nat) :
    List.Pairwise (fun x y => x < y) (intRange a n) := by
  induction n generalizing a with
  | zero => simp [intRange]
  | succ n ih =>
    rw [intRange]
    refine List.Pairwise.cons ?_ (ih (a + 1))
    intro x hx
    have := mem_intRange_lb hx
    omega

theorem evict_counter (s : KVState) (c k : String) :
    (evict s c k).2.current_transaction_id = s.current_transaction_id := by
  unfold evict
  rcases dictGet s.store c with _ | coll
  · rfl
  · simp only
    rcases dictGet coll k with _ | log
    · rfl
    · simp only
      rcases log.getLast? with _ | d
      · rfl
      · rfl

theorem evict_watermark_ge (s : KVState) (c k : String) :
    s.highest_removed_tombstone_id ≤ (evict s c k).2.highest_removed_tombstone_id := by
  unfold evict
  rcases dictGet s.store c with _ | coll
  · exact le_refl _
  · simp only
    rcases dictGet coll k with _ | log
    · exact le_refl _
    · simp only
      rcases log.getLast? with _ | d
      · exact le_refl _
      · by_cases hgt : d.transaction_id > s.highest_removed_tombstone_id
        · simp only [if_pos hgt]
          omega
        · simp only [if_neg hgt]
          exact le_refl _

theorem applyOp_gc (s : KVState) (mv : Nat) : applyOp s (.gcW mv) = s := by
  unfold applyOp garbage_collect
  by_cases h : s.store.isEmpty <;> simp [h]

/-- Joint induction: the transaction ids of the records appended along a
run are exactly the consecutive integers after the starting counter, and
the counter advances by the number of appended records. -/
theorem histFrom_txids (ops : List WriteOp) (s : KVState) :
    ((histFrom s ops).map (fun p => p.2.transaction_id))
      = intRange (s.current_transaction_id + 1) (histFrom s ops).length
    ∧ (runFrom s ops).current_transaction_id
      = s.current_transaction_id + (histFrom s ops).length := by
  induction ops generalizing s with
  | nil => simp [histFrom, runFrom, intRange]
  | cons op ops ih =>
    rcases op with ⟨c, k, v, t⟩ | ⟨c, k, t⟩ | ⟨c, k⟩ | mv
    · -- upsert: appends one record with id counter+1 and bumps the counter
      have hctr : (applyOp s (.upsertW c k v t)).current_transaction_id
          = s.current_transaction_id + 1 := by
        simp [applyOp, upsert, _get_next_transaction_id]
      obtain ⟨ih1, ih2⟩ := ih (applyOp s (.upsertW c k v t))
      constructor
      · simp only [histFrom, appendedBy, List.map_append, List.length_append,
          List.map_cons, List.map_nil, List.length_cons, List.length_nil,
          List.singleton_append, Nat.zero_add]
        rw [ih1, hctr]
        simp [intRange, upsert, _get_next_transaction_id]
      · simp only [runFrom, histFrom, appendedBy, List.length_append,
          List.length_cons, List.length_nil]
        rw [ih2, hctr]
        push_cast
        omega
    · -- delete: appends one record when the key exists, else nothing
      rcases hcoll : dictGet s.store c with _ | coll
      · have happ : appendedBy s (.deleteW c k t) = [] := by
          simp [appendedBy, hcoll]
        have hst : applyOp s (.deleteW c k t) = s := by
          simp [applyOp, delete, hcoll]
        obtain ⟨ih1, ih2⟩ := ih (applyOp s (.deleteW c k t))
        rw [hst] at ih1 ih2
        constructor
        · simpa [histFrom, happ, hst] using ih1
        · simpa [runFrom, histFrom, happ, hst] using ih2
      · rcases hlog : dictGet coll k with _ | log
        · have happ : appendedBy s (.deleteW c k t) = [] := by
            simp [appendedBy, hcoll, hlog]
          have hst : applyOp s (.deleteW c k t) = s := by
            simp [applyOp, delete, hcoll, hlog]
          obtain ⟨ih1, ih2⟩ := ih (applyOp s (.deleteW c k t))
          rw [hst] at ih1 ih2
          constructor
          · simpa [histFrom, happ, hst] using ih1
          · simpa [runFrom, histFrom, happ, hst] using ih2
        · have happ : appendedBy s (.deleteW c k t)
              = [(c, ⟨k, JValue.null, (log.length : Int) + 1, t,
                    s.current_transaction_id + 1⟩)] := by
            simp [appendedBy, hcoll, hlog]
          have hctr : (applyOp s (.deleteW c k t)).current_transaction_id
              = s.current_transaction_id + 1 := by
            simp [applyOp, delete, hcoll, hlog, _get_next_transaction_id]
          obtain ⟨ih1, ih2⟩ := ih (applyOp s (.deleteW c k t))
          constructor
          · simp only [histFrom, happ, List.map_append, List.length_append,
              List.map_cons, List.map_nil, List.length_cons, List.length_nil,
              List.singleton_append, Nat.zero_add]
            rw [ih1, hctr]
            simp [intRange]
          · simp only [runFrom, histFrom, happ, List.length_append,
              List.length_cons, List.length_nil]
            rw [ih2, hctr]
            push_cast
            omega
    · -- evict: appends nothing and leaves the counter unchanged
      have hctr : (applyOp s (.evictW c k)).current_transaction_id
          = s.current_transaction_id := evict_counter s c k
      obtain ⟨ih1, ih2⟩ := ih (applyOp s (.evictW c k))
      rw [hctr] at ih1 ih2
      constructor
      · simpa [histFrom, appendedBy] using ih1
      · simpa [runFrom, histFrom, appendedBy] using ih2
    · -- garbage_collect: never changes the logical state
      have hst : applyOp s (.gcW mv) = s := applyOp_gc s mv
      obtain ⟨ih1, ih2⟩ := ih (applyOp s (.gcW mv))
      rw [hst] at ih1 ih2
      constructor
      · simpa [histFrom, appendedBy, hst] using ih1
      · simpa [runFrom, histFrom, appendedBy, hst] using ih2

/-- C5: along any sequence of write operations from any starting state,
the appended records carry exactly the consecutive transaction ids after
the starting counter — hence every appended record's id is strictly
greater than every previously allocated id and ids are never reused — and
the allocator returns `current_transaction_id + 1` while advancing the
counter. -/
theorem txid_allocation_monotonic (s : KVState) (ops : List WriteOp) :
    ((histFrom s ops).map (fun p => p.2.transaction_id))
      = intRange (s.current_transaction_id + 1) (histFrom s ops).length
    ∧ List.Pairwise (fun a b => a < b)
        (s.current_transaction_id :: (histFrom s ops).map (fun p => p.2.transaction_id))
    ∧ (∀ s₀ : KVState, _get_next_transaction_id s₀
        = (s₀.current_transaction_id + 1,
           { s₀ with current_transaction_id := s₀.current_transaction_id + 1 })) := by
  obtain ⟨h1, _⟩ := histFrom_txids ops s
  refine ⟨h1, ?_, fun s₀ => rfl⟩
  rw [h1]
  exact pairwise_lt_intRange s.current_transaction_id ((histFrom s ops).length + 1)

/-! ## Claim C8: snapshot round-trip -/

theorem dictGet_append_of_none {α : Type} (d₁ d₂ : List (String × α)) (k : String)
    (h : dictGet d₁ k = none) : dictGet (d₁ ++ d₂) k = dictGet d₂ k := by
  induction d₁ with
  | nil => simp
  | cons p rest ih =>
    obtain ⟨k', v'⟩ := p
    by_cases h0 : k' = k
    · simp [dictGet, h0] at h
    · simp only [dictGet, if_neg h0] at h
      simp only [List.cons_append, dictGet, if_neg h0]
      exact ih h

theorem parseSnapshot_map (m : StoreMap) :
    parseSnapshot (m.map (fun p => (p.1, SnapEntry.table p.2))) = some m := by
  induction m with
  | nil => rfl
  | cons p rest ih =>
    obtain ⟨k, coll⟩ := p
    simp [parseSnapshot, ih]

/-- C8 (amended): for every store whose collections do not include one
literally named `last_transaction_id`, saving and loading restores the
store map and the transaction counter exactly and resets the rollback
watermark to 0 — hence every read operation (all of which are functions of
this state) answers identically, watermark reads aside. -/
theorem snapshot_roundtrip (s : KVState)
    (h : dictGet s.store "last_transaction_id" = none) :
    _load_from_disk (_save_to_disk s)
      = ⟨s.store, s.current_transaction_id, 0⟩ := by
  have hkeys_eq : (s.store.map (fun p => (p.1, SnapEntry.table p.2))).map (fun p => p.1)
      = s.store.map (fun p => p.1) := by
    rw [List.map_map]
    rfl
  have hmapnone : dictGet (s.store.map (fun p => (p.1, SnapEntry.table p.2)))
      "last_transaction_id" = none := by
    rw [dictGet_eq_none_iff, hkeys_eq, ← dictGet_eq_none_iff]
    exact h
  have hsave : _save_to_disk s
      = s.store.map (fun p => (p.1, SnapEntry.table p.2))
        ++ [("last_transaction_id", SnapEntry.intVal s.current_transaction_id)] := by
    unfold _save_to_disk
    exact dictSet_of_get_none _ _ _ hmapnone
  have hfilter : ((s.store.map (fun p => (p.1, SnapEntry.table p.2)))
        ++ [("last_transaction_id", SnapEntry.intVal s.current_transaction_id)]).filter
        (fun p => p.1 ≠ "last_transaction_id")
      = s.store.map (fun p => (p.1, SnapEntry.table p.2)) := by
    rw [List.filter_append]
    have h1 : (s.store.map (fun p => (p.1, SnapEntry.table p.2))).filter
        (fun p => p.1 ≠ "last_transaction_id")
        = s.store.map (fun p => (p.1, SnapEntry.table p.2)) := by
      rw [List.filter_eq_self]
      intro p hp
      obtain ⟨q, hq, rfl⟩ := List.mem_map.mp hp
      simp only [ne_eq, decide_not, Bool.not_eq_eq_eq_not, Bool.not_true, decide_eq_false_iff_not]
      intro hc
      rw [dictGet_eq_none_iff] at h
      exact h (hc ▸ List.mem_map_of_mem _ hq)
    have h2 : ([("last_transaction_id", SnapEntry.intVal s.current_transaction_id)]).filter
        (fun (p : String × SnapEntry) => p.1 ≠ "last_transaction_id") = [] := by
      simp
    rw [h1, h2, List.append_nil]
  have hget : dictGet ((s.store.map (fun p => (p.1, SnapEntry.table p.2)))
        ++ [("last_transaction_id", SnapEntry.intVal s.current_transaction_id)])
        "last_transaction_id" = some (SnapEntry.intVal s.current_transaction_id) := by
    rw [dictGet_append_of_none _ _ _ hmapnone]
    simp [dictGet]
  unfold _load_from_disk
  rw [hsave, hfilter]
  dsimp only
  rw [parseSnapshot_map, hget]

/-- C8 witness: the round-trip theorem applied to a concrete store,
hypothesis discharged by computation. -/
theorem snapshot_roundtrip_witness :
    _load_from_disk (_save_to_disk
        ⟨[("users", [("u1", [⟨"u1", JValue.str "A", 1, 0, 1⟩])])], 3, 7⟩)
      = ⟨[("users", [("u1", [⟨"u1", JValue.str "A", 1, 0, 1⟩])])], 3, 0⟩ :=
  snapshot_roundtrip ⟨[("users", [("u1", [⟨"u1", JValue.str "A", 1, 0, 1⟩])])], 3, 7⟩
    (by rfl)

/-- C8 counterexample: the claim quantifies over *every* store state, but a
store holding a collection named `last_transaction_id` does not survive the
round-trip — `_save_to_disk` overwrites that collection's entry with the
persisted counter, so after loading, `get` on its documents answers
differently from the original store. -/
theorem snapshot_roundtrip_counterexample :
    KVState.get (_load_from_disk (_save_to_disk
        ⟨[("last_transaction_id", [("k", [⟨"k", JValue.str "v", 1, 0, 1⟩])])], 1, 0⟩))
        "last_transaction_id" "k" none = none
    ∧ KVState.get ⟨[("last_transaction_id", [("k", [⟨"k", JValue.str "v", 1, 0, 1⟩])])], 1, 0⟩
        "last_transaction_id" "k" none = some ⟨"k", JValue.str "v", 1, 0, 1⟩ :=
  ⟨rfl, rfl⟩

/-! ## Sorting lemmas for the change feed -/

theorem perm_pySortDocs (l : List Document) : (pySortDocs l).Perm l :=
  List.perm_insertionSort _ l

theorem sorted_pySortDocs (l : List Document) :
    List.Pairwise (fun a b => a.transaction_id ≤ b.transaction_id) (pySortDocs l) :=
  @List.sorted_insertionSort Document (fun a b => a.transaction_id ≤ b.transaction_id) _
    ⟨fun a b => Int.le_total a.transaction_id b.transaction_id⟩
    ⟨fun _ _ _ hab hbc => le_trans hab hbc⟩ l

theorem pairwise_lt_of_sorted_nodup {α : Type} (key : α → Int) (l : List α)
    (hs : List.Pairwise (fun a b => key a ≤ key b) l)
    (hnd : (l.map key).Nodup) :
    List.Pairwise (fun a b => key a < key b) l := by
  have hne : List.Pairwise (fun a b => key a ≠ key b) l := by
    have := hnd
    unfold List.Nodup at this
    exact List.pairwise_map.mp this
  refine (hs.and hne).imp ?_
  intro a b hab
  omega

theorem eq_of_perm_of_pairwise_lt {α : Type} (key : α → Int) :
    ∀ (l₁ l₂ : List α), l₁.Perm l₂ →
    List.Pairwise (fun a b => key a < key b) l₁ →
    List.Pairwise (fun a b => key a < key b) l₂ → l₁ = l₂ := by
  intro l₁
  induction l₁ with
  | nil =>
    intro l₂ hp _ _
    exact hp.nil_eq
  | cons a t ih =>
    intro l₂ hp hs₁ hs₂
    cases l₂ with
    | nil =>
      have := hp.length_eq
      simp at this
    | cons b u =>
      have hab : a = b := by
        by_contra hne
        have ha2 : a ∈ b :: u := hp.mem_iff.mp (List.mem_cons_self a t)
        have hb1 : b ∈ a :: t := hp.symm.mem_iff.mp (List.mem_cons_self b u)
        have ha2' : a ∈ u := by
          rcases List.mem_cons.mp ha2 with h | h
          · exact absurd h hne
          · exact h
        have hb1' : b ∈ t := by
          rcases List.mem_cons.mp hb1 with h | h
          · exact absurd h.symm hne
          · exact h
        have h1 : key a < key b := (List.pairwise_cons.mp hs₁).1 b hb1'
        have h2 : key b < key a := (List.pairwise_cons.mp hs₂).1 a ha2'
        omega
      subst hab
      rw [ih u hp.cons_inv (List.pairwise_cons.mp hs₁).2 (List.pairwise_cons.mp hs₂).2]

theorem orderedInsert_map_pair (g : Document → OperationType) (d : Document)
    (l : List Document) :
    List.orderedInsert (fun a b => a.1.transaction_id ≤ b.1.transaction_id) (d, g d)
        (l.map (fun x => (x, g x)))
      = (List.orderedInsert (fun a b => a.transaction_id ≤ b.transaction_id) d l).map
          (fun x => (x, g x)) := by
  induction l with
  | nil => rfl
  | cons x t ih =>
    simp only [List.map_cons, List.orderedInsert]
    by_cases h : d.transaction_id ≤ x.transaction_id
    · rw [if_pos h, if_pos h, List.map_cons, List.map_cons]
    · rw [if_neg h, if_neg h, List.map_cons, ih]

/-- The stable sort of the `(record, operation)` pairs is the stable sort
of the records with the derived operation re-attached. -/
theorem pySortPairs_map (g : Document → OperationType) (l : List Document) :
    pySortPairs (l.map (fun d => (d, g d))) = (pySortDocs l).map (fun d => (d, g d)) := by
  induction l with
  | nil => rfl
  | cons d t ih =>
    simp only [pySortPairs, pySortDocs, List.map_cons, List.insertionSort] at ih ⊢
    rw [ih]
    exact orderedInsert_map_pair g d (List.insertionSort _ t)

/-! ## Scan-order equivalences -/

theorem collPairs_map_snd (c : String) (coll : Collection) :
    (collPairs c coll).map (fun p => p.2) = collDocs coll := by
  unfold collPairs collDocs
  rw [List.map_flatMap]
  congr 1
  funext q
  simp [List.map_map]

theorem mem_collPairs_fst {c : String} {coll : Collection} {p : String × Document}
    (h : p ∈ collPairs c coll) : p.1 = c := by
  unfold collPairs at h
  obtain ⟨q, _, hq⟩ := List.mem_flatMap.mp h
  obtain ⟨d, _, rfl⟩ := List.mem_map.mp hq
  rfl

theorem collPairs_filter_fst (c c₀ : String) (coll : Collection) :
    (collPairs c₀ coll).filter (fun p => p.1 = c)
      = if c₀ = c then collPairs c₀ coll else [] := by
  by_cases h : c₀ = c
  · rw [if_pos h, List.filter_eq_self]
    intro p hp
    simp [mem_collPairs_fst hp, h]
  · rw [if_neg h, List.filter_eq_nil_iff]
    intro p hp
    simp [mem_collPairs_fst hp, h]

theorem allPairs_eq_flatMap (s : KVState) :
    allPairs s = s.store.flatMap (fun p => collPairs p.1 p.2) := rfl

theorem allPairs_map_snd (s : KVState) :
    (allPairs s).map (fun p => p.2) = s.store.flatMap (fun p => collDocs p.2) := by
  rw [allPairs_eq_flatMap, List.map_flatMap]
  congr 1
  funext p
  exact collPairs_map_snd p.1 p.2

/-- With genuine dict keys, iterating `store.keys()` and looking each key
up again is the same as iterating the entries. -/
theorem scanAll_eq (m : StoreMap) (hnd : (m.map (fun p => p.1)).Nodup) :
    (m.map (fun p => p.1)).flatMap
        (fun c => match dictGet m c with | some coll => collDocs coll | none => [])
      = m.flatMap (fun p => collDocs p.2) := by
  induction m with
  | nil => rfl
  | cons e rest ih =>
    obtain ⟨c₀, coll₀⟩ := e
    simp only [List.map_cons, List.nodup_cons] at hnd
    obtain ⟨hc₀, hndr⟩ := hnd
    simp only [List.map_cons, List.flatMap_cons]
    congr 1
    · simp [dictGet]
    · have hsame : ∀ c ∈ rest.map (fun p => p.1),
          (match dictGet ((c₀, coll₀) :: rest) c with
            | some coll => collDocs coll | none => [])
          = (match dictGet rest c with
            | some coll => collDocs coll | none => []) := by
        intro c hc
        have hne : c₀ ≠ c := fun hc' => hc₀ (hc' ▸ hc)
        simp [dictGet, hne]
      calc (rest.map (fun p => p.1)).flatMap
            (fun c => match dictGet ((c₀, coll₀) :: rest) c with
              | some coll => collDocs coll | none => [])
          = (rest.map (fun p => p.1)).flatMap
            (fun c => match dictGet rest c with
              | some coll => collDocs coll | none => []) := by
            exact List.flatMap_congr hsame
        _ = rest.flatMap (fun p => collDocs p.2) := ih hndr

theorem allDocsScanned_none (s : KVState)
    (hnd : (s.store.map (fun p => p.1)).Nodup) :
    allDocsScanned s none = (allPairs s).map (fun p => p.2) := by
  rw [allPairs_map_snd]
  show (s.store.map (fun p => p.1)).flatMap
      (fun c => match dictGet s.store c with | some coll => collDocs coll | none => [])
    = s.store.flatMap (fun p => collDocs p.2)
  exact scanAll_eq s.store hnd

theorem flatMap_filter_key_eq (m : StoreMap) (c : String)
    (hnd : (m.map (fun p => p.1)).Nodup) :
    ((m.flatMap (fun p => collPairs p.1 p.2)).filter (fun p => p.1 = c))
      = (match dictGet m c with | some coll => collPairs c coll | none => []) := by
  induction m with
  | nil => rfl
  | cons e rest ih =>
    obtain ⟨c₀, coll₀⟩ := e
    simp only [List.map_cons, List.nodup_cons] at hnd
    obtain ⟨hc₀, hndr⟩ := hnd
    simp only [List.flatMap_cons, List.filter_append]
    rw [collPairs_filter_fst c c₀ coll₀, ih hndr]
    by_cases h : c₀ = c
    · subst h
      rw [if_pos rfl]
      have hnone : dictGet rest c₀ = none := (dictGet_eq_none_iff rest c₀).mpr hc₀
      rw [hnone]
      simp [dictGet]
    · rw [if_neg h]
      simp [dictGet, h]

theorem allDocsScanned_some (s : KVState) (c : String) (hc : c ≠ "")
    (hnd : (s.store.map (fun p => p.1)).Nodup) :
    allDocsScanned s (some c)
      = ((allPairs s).filter (fun p => p.1 = c)).map (fun p => p.2) := by
  have hl : allDocsScanned s (some c)
      = (match dictGet s.store c with | some coll => collDocs coll | none => []) := by
    unfold allDocsScanned
    rw [show strTruthy (some c) = true from by simpa [strTruthy] using hc]
    simp
  rw [hl, allPairs_eq_flatMap, flatMap_filter_key_eq s.store c hnd]
  rcases dictGet s.store c with _ | coll
  · rfl
  · exact (collPairs_map_snd c coll).symm

/-! ## Claim C1: `get_changes_after` -/

/-- C1 (amended): with no (nonempty) predicate string and a collection
filter that is absent or a nonempty name, `get_changes_after` returns
exactly the first `limit` elements of the strictly-ascending transaction-id
enumeration of the scanned records with id above `start`, each paired with
its derived operation; with a (nonempty) predicate it raises
`AttributeError` as soon as any scanned record passes the id filter (the
store never constructs its `query_parser`), and returns the empty list when
none does.  The `Nodup` hypotheses say the state is a genuine dict store
whose scanned transaction ids are distinct — true of every reachable
state. -/
theorem get_changes_after_characterisation (s : KVState) (start : Int) (limit : Nat)
    (whereQ collection : Option String)
    (hkeys : (s.store.map (fun p => p.1)).Nodup)
    (hnd : ((allDocsScanned s collection).map (fun d => d.transaction_id)).Nodup) :
    (strTruthy whereQ = false → collFilterOk collection = true →
      ∃ full : List Document,
        full.Perm (((specScannedPairs s collection).map (fun p => p.2)).filter
          (fun d => start < d.transaction_id))
        ∧ List.Pairwise (fun a b => a.transaction_id < b.transaction_id) full
        ∧ get_changes_after s start limit whereQ collection
            = .ok ((full.take limit).map (fun d => (d, _infer_operation d))))
    ∧ (strTruthy whereQ = true →
        (((allDocsScanned s collection).any (fun d => start < d.transaction_id)) = true →
          get_changes_after s start limit whereQ collection
            = .error (.attributeError "'KeyValueStore' object has no attribute 'query_parser'"))
        ∧ (((allDocsScanned s collection).any (fun d => start < d.transaction_id)) = false →
          get_changes_after s start limit whereQ collection = .ok [])) := by
  have hscan : collFilterOk collection = true →
      allDocsScanned s collection = (specScannedPairs s collection).map (fun p => p.2) := by
    intro hok
    cases collection with
    | none => exact allDocsScanned_none s hkeys
    | some c =>
      have hc : c ≠ "" := by simpa [collFilterOk] using hok
      exact allDocsScanned_some s c hc hkeys
  constructor
  · intro hw hok
    refine ⟨pySortDocs ((allDocsScanned s collection).filter
        (fun d => start < d.transaction_id)), ?_, ?_, ?_⟩
    · rw [← hscan hok]
      exact perm_pySortDocs ((allDocsScanned s collection).filter
        (fun d => start < d.transaction_id))
    · have hsub : (((allDocsScanned s collection).filter
            (fun d => start < d.transaction_id)).map (fun d => d.transaction_id)).Sublist
          ((allDocsScanned s collection).map (fun d => d.transaction_id)) :=
        List.Sublist.map _ (List.filter_sublist _)
      have hnd2 := hnd.sublist hsub
      have hperm := (perm_pySortDocs ((allDocsScanned s collection).filter
        (fun d => start < d.transaction_id))).map (fun d => d.transaction_id)
      exact pairwise_lt_of_sorted_nodup (fun d : Document => d.transaction_id)
        (pySortDocs ((allDocsScanned s collection).filter
          (fun d => start < d.transaction_id)))
        (sorted_pySortDocs _) ((hperm.nodup_iff).mpr hnd2)
    · unfold get_changes_after
      rw [if_neg (by rw [hw]; simp)]
      congr 1
      rw [pySortPairs_map, ← List.map_take]
  · intro hw
    constructor
    · intro hany
      unfold get_changes_after
      rw [if_pos (by rw [hw, hany]; rfl)]
    · intro hany
      unfold get_changes_after
      rw [if_neg (by rw [hw, hany]; simp)]
      have hfil : (allDocsScanned s collection).filter
          (fun d => start < d.transaction_id) = [] := by
        rw [List.filter_eq_nil_iff]
        intro d hd
        have := List.any_eq_false.mp hany d hd
        simpa using this
      rw [hfil]
      simp [pySortPairs, List.insertionSort]

/-- C1 witness: the characterisation applied to a one-record store with no
predicate and no collection filter, all hypotheses discharged by
computation. -/
theorem get_changes_after_characterisation_witness :
    ∃ full : List Document,
      full.Perm (((specScannedPairs ⟨[("x", [("k", [⟨"k", JValue.int 7, 1, 0, 1⟩])])], 1, 0⟩
          none).map (fun p => p.2)).filter (fun d => 0 < d.transaction_id))
      ∧ List.Pairwise (fun a b => a.transaction_id < b.transaction_id) full
      ∧ get_changes_after ⟨[("x", [("k", [⟨"k", JValue.int 7, 1, 0, 1⟩])])], 1, 0⟩ 0 2 none none
          = .ok ((full.take 2).map (fun d => (d, _infer_operation d))) :=
  (get_changes_after_characterisation
    ⟨[("x", [("k", [⟨"k", JValue.int 7, 1, 0, 1⟩])])], 1, 0⟩ 0 2 none none
    (by decide) (by decide)).1 rfl rfl

/-- C1 counterexample: at concrete inputs the claim fails twice over.  With
a predicate (`where="value.a = 1"`) on a store holding one record past the
cursor, the call raises `AttributeError` instead of returning the filtered
prefix.  And with the collection filter `""` (a legal collection name, but
falsy in Python), the call scans *all* collections and returns the record
of collection `"x"`, although the claim says only the records of the named
collection `""` (there are none) may appear. -/
theorem get_changes_after_counterexample :
    get_changes_after ⟨[("x", [("k", [⟨"k", JValue.int 1, 1, 0, 1⟩])])], 1, 0⟩ 0 2
        (some "value.a = 1") none
      = .error (.attributeError "'KeyValueStore' object has no attribute 'query_parser'")
    ∧ get_changes_after ⟨[("x", [("k", [⟨"k", JValue.int 1, 1, 0, 1⟩])])], 1, 0⟩ 0 10
        none (some "")
      = .ok [(⟨"k", JValue.int 1, 1, 0, 1⟩, OperationType.insert)] :=
  ⟨rfl, rfl⟩

/-! ## Store invariant machinery -/

theorem dictGet_mem {α : Type} {d : List (String × α)} {k : String} {v : α}
    (h : dictGet d k = some v) : (k, v) ∈ d := by
  induction d with
  | nil => simp [dictGet] at h
  | cons p rest ih =>
    obtain ⟨k', v'⟩ := p
    by_cases h0 : k' = k
    · subst h0
      rw [show dictGet ((k', v') :: rest) k' = some v' from by simp [dictGet]] at h
      simp [Option.some.inj h]
    · simp only [dictGet, if_neg h0] at h
      exact List.mem_cons_of_mem _ (ih h)

theorem mem_dictSet {α : Type} {d : List (String × α)} {k : String} {v : α}
    {p : String × α} (h : p ∈ dictSet d k v) : p ∈ d ∨ p = (k, v) := by
  induction d with
  | nil =>
    simp [dictSet] at h
    simp [h]
  | cons e rest ih =>
    obtain ⟨k', v'⟩ := e
    by_cases h0 : k' = k
    · simp only [dictSet, if_pos h0] at h
      rcases List.mem_cons.mp h with h | h
      · right; exact h
      · left; exact List.mem_cons_of_mem _ h
    · simp only [dictSet, if_neg h0] at h
      rcases List.mem_cons.mp h with h | h
      · left; simp [h]
      · rcases ih h with h | h
        · left; exact List.mem_cons_of_mem _ h
        · right; exact h

theorem keys_dictDel_sublist {α : Type} (d : List (String × α)) (k : String) :
    ((dictDel d k).map (fun p => p.1)).Sublist (d.map (fun p => p.1)) :=
  List.Sublist.map _ (List.filter_sublist d)

theorem mem_allPairs_iff {s : KVState} {p : String × Document} :
    p ∈ allPairs s ↔ ∃ ce ∈ s.store, ∃ ke ∈ ce.2, p.1 = ce.1 ∧ p.2 ∈ ke.2 := by
  unfold allPairs
  constructor
  · intro h
    obtain ⟨ce, hce, h⟩ := List.mem_flatMap.mp h
    obtain ⟨ke, hke, h⟩ := List.mem_flatMap.mp h
    obtain ⟨d, hd, rfl⟩ := List.mem_map.mp h
    exact ⟨ce, hce, ke, hke, rfl, hd⟩
  · rintro ⟨ce, hce, ke, hke, h1, h2⟩
    refine List.mem_flatMap.mpr ⟨ce, hce, List.mem_flatMap.mpr ⟨ke, hke, ?_⟩⟩
    obtain ⟨pc, pd⟩ := p
    simp only at h1 h2
    subst h1
    exact List.mem_map.mpr ⟨pd, h2, rfl⟩

theorem allPairs_txLe {s : KVState} (inv : StoreInv s) :
    ∀ p ∈ allPairs s, p.2.transaction_id ≤ s.current_transaction_id := by
  intro p hp
  obtain ⟨ce, hce, ke, hke, _, h2⟩ := mem_allPairs_iff.mp hp
  exact inv.txLe ce hce ke hke p.2 h2

theorem intRange_snoc (a : Int) (n : Nat) :
    intRange a (n + 1) = intRange a n ++ [a + n] := by
  induction n generalizing a with
  | zero => simp [intRange]
  | succ n ih =>
    rw [intRange, ih (a + 1), intRange]
    simp only [List.cons_append, List.cons.injEq, true_and]
    congr 2
    push_cast
    ring

theorem le_getLast_of_chain {l : List Document} {x : Document}
    (hc : List.Chain' (fun a b => a < b) (l.map (fun d => d.transaction_id)))
    (hl : l.getLast? = some x) :
    ∀ d ∈ l, d.transaction_id ≤ x.transaction_id := by
  induction l with
  | nil => simp at hl
  | cons a t ih =>
    cases t with
    | nil =>
      simp only [List.getLast?_singleton, Option.some.injEq] at hl
      subst hl
      intro d hd
      simp only [List.mem_singleton] at hd
      subst hd
      exact le_refl _
    | cons b u =>
      rw [List.getLast?_cons_cons] at hl
      have hc' : List.Chain' (fun a b => a < b)
          ((b :: u).map (fun d => d.transaction_id)) := by
        simp only [List.map_cons] at hc ⊢
        exact hc.tail
      have hab : a.transaction_id < b.transaction_id := by
        simp only [List.map_cons] at hc
        exact (List.chain'_cons.mp hc).1
      intro d hd
      rcases List.mem_cons.mp hd with rfl | hd
      · have hb := ih hc' hl b (List.mem_cons_self b u)
        omega
      · exact ih hc' hl d hd

theorem logOf_upsert (s : KVState) (c k : String) (v : JValue) (t : Int) :
    logOf (upsert s c k v t).2 c k = logOf s c k ++ [(upsert s c k v t).1] := by
  have hstore : (upsert s c k v t).2.store
      = dictSet s.store c (dictSet ((dictGet s.store c).getD []) k
          (logOf s c k ++ [(upsert s c k v t).1])) := by
    simp [upsert, _get_next_transaction_id, logOf]
  show (dictGet ((dictGet (upsert s c k v t).2.store c).getD []) k).getD []
      = logOf s c k ++ [(upsert s c k v t).1]
  rw [hstore, dictGet_dictSet_self, Option.getD_some, dictGet_dictSet_self, Option.getD_some]

theorem delete_eq_upsert_state (s : KVState) (c k : String) (t : Int)
    (coll : Collection) (log : VersionLog)
    (hc : dictGet s.store c = some coll) (hk : dictGet coll k = some log) :
    (delete s c k t).2 = (upsert s c k JValue.null t).2 := by
  simp [delete, upsert, hc, hk, _get_next_transaction_id]

theorem appendedBy_delete_eq (s : KVState) (c k : String) (t : Int)
    (coll : Collection) (log : VersionLog)
    (hc : dictGet s.store c = some coll) (hk : dictGet coll k = some log) :
    appendedBy s (.deleteW c k t) = [(c, (upsert s c k JValue.null t).1)] := by
  simp [appendedBy, hc, hk, upsert, _get_next_transaction_id, logOf]

theorem allPairs_upsert (s : KVState) (c k : String) (v : JValue) (t : Int) :
    (allPairs (upsert s c k v t).2).Perm (allPairs s ++ [(c, (upsert s c k v t).1)]) := by
  have hstore : (upsert s c k v t).2.store
      = dictSet s.store c (dictSet ((dictGet s.store c).getD []) k
          (((dictGet ((dictGet s.store c).getD []) k).getD [])
            ++ [(upsert s c k v t).1])) := by
    simp [upsert, _get_next_transaction_id]
  have hall : allPairs (upsert s c k v t).2
      = ((upsert s c k v t).2.store).flatMap (fun p => collPairs p.1 p.2) := rfl
  rcases hc : dictGet s.store c with _ | coll
  · -- collection absent: the store gains one entry holding one one-record log
    rw [hall, hstore, hc]
    simp only [Option.getD_none]
    rw [show (dictGet ([] : Collection) k) = none from rfl]
    simp only [Option.getD_none, List.nil_append]
    rw [show dictSet ([] : Collection) k [(upsert s c k v t).1]
        = [(k, [(upsert s c k v t).1])] from rfl]
    rw [dictSet_of_get_none _ _ _ hc, List.flatMap_append]
    apply List.Perm.of_eq
    rw [allPairs_eq_flatMap]
    congr 1
  · rcases hk : dictGet coll k with _ | log
    · -- key absent in an existing collection
      rw [hall, hstore, hc]
      simp only [Option.getD_some, hk, Option.getD_none, List.nil_append]
      obtain ⟨d₁, d₂, he, _, hs⟩ := dictSet_split s.store c
        (dictSet coll k [(upsert s c k v t).1]) coll hc
      rw [hs, dictSet_of_get_none _ _ _ hk]
      rw [allPairs_eq_flatMap, he]
      simp only [List.flatMap_append, List.flatMap_cons, collPairs, List.map_append,
        List.flatMap_nil, List.map_cons, List.map_nil]
      rw [← Multiset.coe_eq_coe]
      simp only [← Multiset.coe_add, Multiset.coe_nil]
      abel
    · -- key present: the log grows by one record
      rw [hall, hstore, hc]
      simp only [Option.getD_some, hk]
      obtain ⟨d₁, d₂, he, _, hs⟩ := dictSet_split s.store c
        (dictSet coll k (log ++ [(upsert s c k v t).1])) coll hc
      obtain ⟨e₁, e₂, hce, _, hcs⟩ := dictSet_split coll k
        (log ++ [(upsert s c k v t).1]) log hk
      rw [hs, hcs, allPairs_eq_flatMap, he, hce]
      simp only [List.flatMap_append, List.flatMap_cons, collPairs, List.map_append,
        List.flatMap_nil, List.map_cons, List.map_nil]
      rw [← Multiset.coe_eq_coe]
      simp only [← Multiset.coe_add, Multiset.coe_nil]
      abel

theorem allPairs_delete (s : KVState) (c k : String) (t : Int) :
    (allPairs (delete s c k t).2).Perm (allPairs s ++ appendedBy s (.deleteW c k t)) := by
  rcases hc : dictGet s.store c with _ | coll
  · have h1 : (delete s c k t).2 = s := by simp [delete, hc]
    have h2 : appendedBy s (.deleteW c k t) = [] := by simp [appendedBy, hc]
    rw [h1, h2, List.append_nil]
  · rcases hk : dictGet coll k with _ | log
    · have h1 : (delete s c k t).2 = s := by simp [delete, hc, hk]
      have h2 : appendedBy s (.deleteW c k t) = [] := by simp [appendedBy, hc, hk]
      rw [h1, h2, List.append_nil]
    · rw [delete_eq_upsert_state s c k t coll log hc hk,
        appendedBy_delete_eq s c k t coll log hc hk]
      exact allPairs_upsert s c k JValue.null t

theorem evict_decomp (s : KVState) (c k : String) (inv : StoreInv s) :
    ∃ removed : List (String × Document),
      (allPairs s).Perm (allPairs (evict s c k).2 ++ removed)
      ∧ ∀ p ∈ removed,
          p.2.transaction_id ≤ (evict s c k).2.highest_removed_tombstone_id := by
  rcases hc : dictGet s.store c with _ | coll
  · refine ⟨[], ?_, by simp⟩
    rw [show (evict s c k).2 = s from by simp [evict, hc]]
    simp
  · rcases hk : dictGet coll k with _ | log
    · refine ⟨[], ?_, by simp⟩
      rw [show (evict s c k).2 = s from by simp [evict, hc, hk]]
      simp
    · rcases hlast : log.getLast? with _ | lastDoc
      · refine ⟨[], ?_, by simp⟩
        rw [show (evict s c k).2 = s from by simp [evict, hc, hk, hlast]]
        simp
      · have hwm : (evict s c k).2.highest_removed_tombstone_id
            = if lastDoc.transaction_id > s.highest_removed_tombstone_id
              then lastDoc.transaction_id else s.highest_removed_tombstone_id := by
          simp [evict, hc, hk, hlast]
        have hmem_c := dictGet_mem hc
        have hmem_k := dictGet_mem hk
        have hchain := inv.txChain _ hmem_c _ hmem_k
        have hbound : ∀ d ∈ log,
            d.transaction_id ≤ (evict s c k).2.highest_removed_tombstone_id := by
          intro d hd
          have h1 := le_getLast_of_chain hchain hlast d hd
          rw [hwm]
          split <;> omega
        refine ⟨log.map (fun d => (c, d)), ?_, ?_⟩
        swap
        · intro p hp
          obtain ⟨d, hd, rfl⟩ := List.mem_map.mp hp
          exact hbound d hd
        obtain ⟨e₁, e₂, hce, _, _⟩ := dictSet_split coll k log log hk
        have hdel : dictDel coll k = e₁ ++ e₂ := by
          have h2 := inv.collND _ hmem_c
          rw [hce] at h2
          rw [hce]
          exact dictDel_of_split e₁ e₂ k log h2
        obtain ⟨d₁, d₂, he, _, hs⟩ := dictSet_split s.store c (dictDel coll k) coll hc
        have hstore' : (evict s c k).2.store
            = if (dictDel coll k).isEmpty then dictDel s.store c
              else dictSet s.store c (dictDel coll k) := by
          simp [evict, hc, hk, hlast]
        by_cases hemp : (dictDel coll k).isEmpty
        · have he12 : e₁ = [] ∧ e₂ = [] := by
            rw [hdel] at hemp
            rw [List.isEmpty_iff, List.append_eq_nil] at hemp
            exact hemp
          have hdelstore : dictDel s.store c = d₁ ++ d₂ := by
            have hknd := inv.keysND
            rw [he] at hknd
            rw [he]
            exact dictDel_of_split d₁ d₂ c coll hknd
          rw [allPairs_eq_flatMap, allPairs_eq_flatMap, he, hce, he12.1, he12.2]
          rw [show (evict s c k).2.store = dictDel s.store c from by
            rw [hstore', if_pos hemp]]
          rw [hdelstore]
          simp only [List.flatMap_append, List.flatMap_cons, collPairs,
            List.flatMap_nil, List.nil_append, List.append_nil]
          rw [← Multiset.coe_eq_coe]
          simp only [← Multiset.coe_add, Multiset.coe_nil]
          abel
        · rw [allPairs_eq_flatMap, allPairs_eq_flatMap, he, hce]
          rw [show (evict s c k).2.store = dictSet s.store c (dictDel coll k) from by
            rw [hstore', if_neg hemp]]
          rw [hs, hdel]
          simp only [List.flatMap_append, List.flatMap_cons, collPairs,
            List.flatMap_nil]
          rw [← Multiset.coe_eq_coe]
          simp only [← Multiset.coe_add, Multiset.coe_nil]
          abel

theorem logOf_props (s : KVState) (c k : String) (inv : StoreInv s) :
    (logOf s c k).map (fun d => d.version) = intRange 1 (logOf s c k).length
    ∧ List.Chain' (fun a b => a < b) ((logOf s c k).map (fun d => d.transaction_id))
    ∧ ∀ d ∈ logOf s c k, d.transaction_id ≤ s.current_transaction_id := by
  unfold logOf
  rcases hc : dictGet s.store c with _ | coll
  · simp [hc, intRange, dictGet]
  · rcases hk : dictGet coll k with _ | log
    · simp [hc, hk, intRange]
    · simp only [hc, hk, Option.getD_some]
      have hce := dictGet_mem hc
      have hke := dictGet_mem hk
      exact ⟨inv.density _ hce _ hke, inv.txChain _ hce _ hke,
        fun d hd => inv.txLe _ hce _ hke d hd⟩

theorem storeInv_upsert (s : KVState) (c k : String) (v : JValue) (t : Int)
    (inv : StoreInv s) : StoreInv (upsert s c k v t).2 := by
  obtain ⟨hdens, hchain, hle⟩ := logOf_props s c k inv
  have hstore : (upsert s c k v t).2.store
      = dictSet s.store c (dictSet ((dictGet s.store c).getD []) k
          (logOf s c k ++ [(upsert s c k v t).1])) := by
    simp [upsert, _get_next_transaction_id, logOf]
  have hctr : (upsert s c k v t).2.current_transaction_id
      = s.current_transaction_id + 1 := by
    simp [upsert, _get_next_transaction_id]
  have hdoc : (upsert s c k v t).1.version = ((logOf s c k).length : Int) + 1 := by
    simp [upsert, _get_next_transaction_id, logOf]
  have hdoctx : (upsert s c k v t).1.transaction_id = s.current_transaction_id + 1 := by
    simp [upsert, _get_next_transaction_id]
  have hcollnd : (((dictGet s.store c).getD []).map (fun p => p.1)).Nodup := by
    rcases hc : dictGet s.store c with _ | co
    · simp
    · exact inv.collND _ (dictGet_mem hc)
  have hcollprops : ∀ q ∈ (dictGet s.store c).getD [],
      (q.2.map (fun d => d.version) = intRange 1 q.2.length
      ∧ List.Chain' (fun a b => a < b) (q.2.map (fun d => d.transaction_id))
      ∧ ∀ d ∈ q.2, d.transaction_id ≤ s.current_transaction_id) := by
    intro q hq
    rcases hc : dictGet s.store c with _ | co
    · rw [hc] at hq
      simp at hq
    · rw [hc] at hq
      simp only [Option.getD_some] at hq
      exact ⟨inv.density _ (dictGet_mem hc) _ hq, inv.txChain _ (dictGet_mem hc) _ hq,
        fun d hd => inv.txLe _ (dictGet_mem hc) _ hq d hd⟩
  have hmem : ∀ p ∈ (upsert s c k v t).2.store,
      p ∈ s.store ∨ p = (c, dictSet ((dictGet s.store c).getD []) k
        (logOf s c k ++ [(upsert s c k v t).1])) := by
    intro p hp
    rw [hstore] at hp
    exact mem_dictSet hp
  have hmemcoll : ∀ q ∈ dictSet ((dictGet s.store c).getD []) k
      (logOf s c k ++ [(upsert s c k v t).1]),
      q ∈ (dictGet s.store c).getD []
      ∨ q = (k, logOf s c k ++ [(upsert s c k v t).1]) := fun q hq => mem_dictSet hq
  refine ⟨?_, ?_, ?_, ?_, ?_, ?_⟩
  · -- keysND
    rw [hstore]
    rcases hc : dictGet s.store c with _ | co
    · rw [dictSet_of_get_none _ _ _ hc, List.map_append, List.nodup_append]
      refine ⟨inv.keysND, by simp, ?_⟩
      intro a ha
      simp only [List.map_cons, List.map_nil, List.mem_singleton]
      intro hac
      rw [dictGet_eq_none_iff] at hc
      exact hc (hac ▸ ha)
    · rw [keys_dictSet_of_get_some _ _ _ co hc]
      exact inv.keysND
  · -- collND
    intro p hp
    rcases hmem p hp with h | h
    · exact inv.collND p h
    · rw [h]
      rcases hk : dictGet ((dictGet s.store c).getD []) k with _ | lg
      · rw [dictSet_of_get_none _ _ _ hk, List.map_append, List.nodup_append]
        refine ⟨hcollnd, by simp, ?_⟩
        intro a ha
        simp only [List.map_cons, List.map_nil, List.mem_singleton]
        intro hak
        rw [dictGet_eq_none_iff] at hk
        exact hk (hak ▸ ha)
      · rw [keys_dictSet_of_get_some _ _ _ lg hk]
        exact hcollnd
  · -- density
    intro p hp q hq
    rcases hmem p hp with h | h
    · exact inv.density p h q hq
    · rw [h] at hq
      rcases hmemcoll q hq with h2 | h2
      · exact (hcollprops q h2).1
      · rw [h2]
        simp only
        rw [List.map_append, hdens, List.map_cons, List.map_nil, hdoc,
          List.length_append, List.length_cons, List.length_nil, intRange_snoc]
        rw [show ((logOf s c k).length : Int) + 1
            = 1 + ((logOf s c k).length : Int) from by ring]
  · -- txChain
    intro p hp q hq
    rcases hmem p hp with h | h
    · exact inv.txChain p h q hq
    · rw [h] at hq
      rcases hmemcoll q hq with h2 | h2
      · exact (hcollprops q h2).2.1
      · rw [h2]
        simp only
        rw [List.map_append, List.map_cons, List.map_nil, List.chain'_append]
        refine ⟨hchain, List.chain'_singleton _, ?_⟩
        intro x hx y hy
        simp only [List.head?_cons, Option.mem_def, Option.some.injEq] at hy
        subst hy
        have hx' : x ∈ (logOf s c k).map (fun d => d.transaction_id) :=
          List.mem_of_mem_getLast? (Option.mem_def.mp hx)
        obtain ⟨d, hd, rfl⟩ := List.mem_map.mp hx'
        have := hle d hd
        rw [hdoctx]
        omega
  · -- txLe
    intro p hp q hq d hd
    rw [hctr]
    rcases hmem p hp with h | h
    · have := inv.txLe p h q hq d hd
      omega
    · rw [h] at hq
      rcases hmemcoll q hq with h2 | h2
      · have := (hcollprops q h2).2.2 d hd
        omega
      · rw [h2] at hd
        simp only at hd
        rcases List.mem_append.mp hd with h3 | h3
        · have := hle d h3
          omega
        · simp only [List.mem_singleton] at h3
          rw [h3, hdoctx]
  · -- txND
    have hperm := (allPairs_upsert s c k v t).map (fun p => p.2.transaction_id)
    rw [hperm.nodup_iff, List.map_append, List.nodup_append]
    refine ⟨inv.txND, by simp, ?_⟩
    intro a ha
    simp only [List.map_cons, List.map_nil, List.mem_singleton]
    intro hac
    obtain ⟨p, hp, rfl⟩ := List.mem_map.mp ha
    have h1 := allPairs_txLe inv p hp
    have hac' : p.2.transaction_id = (upsert s c k v t).1.transaction_id := hac
    rw [hdoctx] at hac'
    omega

theorem storeInv_delete (s : KVState) (c k : String) (t : Int)
    (inv : StoreInv s) : StoreInv (delete s c k t).2 := by
  rcases hc : dictGet s.store c with _ | coll
  · rw [show (delete s c k t).2 = s from by simp [delete, hc]]
    exact inv
  · rcases hk : dictGet coll k with _ | log
    · rw [show (delete s c k t).2 = s from by simp [delete, hc, hk]]
      exact inv
    · rw [delete_eq_upsert_state s c k t coll log hc hk]
      exact storeInv_upsert s c k JValue.null t inv

theorem storeInv_evict (s : KVState) (c k : String) (inv : StoreInv s) :
    StoreInv (evict s c k).2 := by
  rcases hc : dictGet s.store c with _ | coll
  · rw [show (evict s c k).2 = s from by simp [evict, hc]]
    exact inv
  rcases hk : dictGet coll k with _ | log
  · rw [show (evict s c k).2 = s from by simp [evict, hc, hk]]
    exact inv
  rcases hlast : log.getLast? with _ | lastDoc
  · rw [show (evict s c k).2 = s from by simp [evict, hc, hk, hlast]]
    exact inv
  have hctr : (evict s c k).2.current_transaction_id = s.current_transaction_id :=
    evict_counter s c k
  have hstore' : (evict s c k).2.store
      = if (dictDel coll k).isEmpty then dictDel s.store c
        else dictSet s.store c (dictDel coll k) := by
    simp [evict, hc, hk, hlast]
  have hmem : ∀ p ∈ (evict s c k).2.store, p ∈ s.store ∨ p = (c, dictDel coll k) := by
    intro p hp
    rw [hstore'] at hp
    by_cases hemp : (dictDel coll k).isEmpty
    · rw [if_pos hemp] at hp
      exact Or.inl (List.mem_of_mem_filter hp)
    · rw [if_neg hemp] at hp
      exact mem_dictSet hp
  have hsubcoll : ∀ q ∈ dictDel coll k, q ∈ coll :=
    fun q hq => List.mem_of_mem_filter hq
  refine ⟨?_, ?_, ?_, ?_, ?_, ?_⟩
  · rw [hstore']
    by_cases hemp : (dictDel coll k).isEmpty
    · rw [if_pos hemp]
      exact (keys_dictDel_sublist _ _).nodup inv.keysND
    · rw [if_neg hemp, keys_dictSet_of_get_some _ _ _ coll hc]
      exact inv.keysND
  · intro p hp
    rcases hmem p hp with h | h
    · exact inv.collND p h
    · rw [h]
      exact (keys_dictDel_sublist coll k).nodup (inv.collND _ (dictGet_mem hc))
  · intro p hp q hq
    rcases hmem p hp with h | h
    · exact inv.density p h q hq
    · rw [h] at hq
      exact inv.density _ (dictGet_mem hc) q (hsubcoll q hq)
  · intro p hp q hq
    rcases hmem p hp with h | h
    · exact inv.txChain p h q hq
    · rw [h] at hq
      exact inv.txChain _ (dictGet_mem hc) q (hsubcoll q hq)
  · intro p hp q hq d hd
    rw [hctr]
    rcases hmem p hp with h | h
    · exact inv.txLe p h q hq d hd
    · rw [h] at hq
      exact inv.txLe _ (dictGet_mem hc) q (hsubcoll q hq) d hd
  · obtain ⟨removed, hperm, _⟩ := evict_decomp s c k inv
    have h2 := hperm.map (fun p => p.2.transaction_id)
    have h3 := h2.nodup_iff.mp inv.txND
    rw [List.map_append] at h3
    exact (List.nodup_append.mp h3).1

theorem storeInv_applyOp (s : KVState) (op : WriteOp) (inv : StoreInv s) :
    StoreInv (applyOp s op) := by
  rcases op with ⟨c, k, v, t⟩ | ⟨c, k, t⟩ | ⟨c, k⟩ | mv
  · exact storeInv_upsert s c k v t inv
  · exact storeInv_delete s c k t inv
  · exact storeInv_evict s c k inv
  · rw [applyOp_gc]
    exact inv

theorem storeInv_runFrom (ops : List WriteOp) (s : KVState) (inv : StoreInv s) :
    StoreInv (runFrom s ops) := by
  induction ops generalizing s with
  | nil => exact inv
  | cons op ops ih => exact ih (applyOp s op) (storeInv_applyOp s op inv)

theorem storeInv_init : StoreInv initState :=
  ⟨List.nodup_nil,
   fun p hp => by simp [initState] at hp,
   fun p hp => by simp [initState] at hp,
   fun p hp => by simp [initState] at hp,
   fun p hp => by simp [initState] at hp,
   List.nodup_nil⟩

/-! ## Claim C7: version density -/

/-- C7: in every store reachable from a fresh store by write operations,
the versions of every (collection, key) log are exactly `1..len(log)` in
order; mechanically, `upsert` always appends a record with version
`len(log) + 1`, and so does `delete` on an existing key (its tombstone). -/
theorem version_density (ops : List WriteOp) :
    (∀ c coll k log, dictGet (runFrom initState ops).store c = some coll →
      dictGet coll k = some log →
      log.map (fun d => d.version) = intRange 1 log.length)
    ∧ (∀ (s : KVState) (c k : String) (v : JValue) (t : Int),
        ((upsert s c k v t).1).version = ((logOf s c k).length : Int) + 1
        ∧ logOf (upsert s c k v t).2 c k = logOf s c k ++ [(upsert s c k v t).1])
    ∧ (∀ (s : KVState) (c k : String) (t : Int) (coll : Collection) (log : VersionLog),
        dictGet s.store c = some coll → dictGet coll k = some log →
        logOf (delete s c k t).2 c k
          = logOf s c k ++ [⟨k, JValue.null, ((logOf s c k).length : Int) + 1, t,
              s.current_transaction_id + 1⟩]) := by
  refine ⟨?_, ?_, ?_⟩
  · intro c coll k log hc hk
    have inv := storeInv_runFrom ops initState storeInv_init
    exact inv.density _ (dictGet_mem hc) _ (dictGet_mem hk)
  · intro s c k v t
    refine ⟨?_, logOf_upsert s c k v t⟩
    simp [upsert, _get_next_transaction_id, logOf]
  · intro s c k t coll log hc hk
    rw [delete_eq_upsert_state s c k t coll log hc hk, logOf_upsert]
    rfl

/-- C7 witness: running `upsert` then `delete` on a fresh store yields the
log `[version 1, version 2]`, matching `intRange 1 2`, via the theorem. -/
theorem version_density_witness :
    ([⟨"k", JValue.int 5, 1, 0, 1⟩, ⟨"k", JValue.null, 2, 1, 2⟩] : VersionLog).map
        (fun d => d.version) = intRange 1 2 :=
  (version_density [WriteOp.upsertW "c" "k" (JValue.int 5) 0,
      WriteOp.deleteW "c" "k" 1]).1 "c"
    [("k", [⟨"k", JValue.int 5, 1, 0, 1⟩, ⟨"k", JValue.null, 2, 1, 2⟩])] "k"
    [⟨"k", JValue.int 5, 1, 0, 1⟩, ⟨"k", JValue.null, 2, 1, 2⟩] rfl rfl

/-! ## Ghost-history decomposition (for claim C2) -/

theorem watermark_mono (ops : List WriteOp) (s : KVState) :
    s.highest_removed_tombstone_id ≤ (runFrom s ops).highest_removed_tombstone_id := by
  induction ops generalizing s with
  | nil => exact le_refl _
  | cons op ops ih =>
    have hstep : s.highest_removed_tombstone_id
        ≤ (applyOp s op).highest_removed_tombstone_id := by
      rcases op with ⟨c, k, v, t⟩ | ⟨c, k, t⟩ | ⟨c, k⟩ | mv
      · have h : (applyOp s (.upsertW c k v t)).highest_removed_tombstone_id
            = s.highest_removed_tombstone_id := by
          simp [applyOp, upsert, _get_next_transaction_id]
        omega
      · rcases hc : dictGet s.store c with _ | coll
        · have h : applyOp s (.deleteW c k t) = s := by simp [applyOp, delete, hc]
          rw [h]
        · rcases hk : dictGet coll k with _ | log
          · have h : applyOp s (.deleteW c k t) = s := by
              simp [applyOp, delete, hc, hk]
            rw [h]
          · have h : (applyOp s (.deleteW c k t)).highest_removed_tombstone_id
                = s.highest_removed_tombstone_id := by
              simp [applyOp, delete, hc, hk, _get_next_transaction_id]
            omega
      · exact evict_watermark_ge s c k
      · rw [applyOp_gc]
    exact le_trans hstep (ih (applyOp s op))

/-- Every record ever appended along a run is either still in the final
store or has a transaction id at or below the final rollback watermark. -/
theorem hist_decomp (ops : List WriteOp) (s : KVState) (inv : StoreInv s) :
    ∃ removed : List (String × Document),
      (allPairs s ++ histFrom s ops).Perm (allPairs (runFrom s ops) ++ removed)
      ∧ ∀ p ∈ removed,
          p.2.transaction_id ≤ (runFrom s ops).highest_removed_tombstone_id := by
  induction ops generalizing s with
  | nil =>
    refine ⟨[], ?_, by simp⟩
    simp [histFrom, runFrom]
  | cons op ops ih =>
    obtain ⟨rem, hperm, hbound⟩ := ih (applyOp s op) (storeInv_applyOp s op inv)
    have hwm := watermark_mono ops (applyOp s op)
    have hrun : runFrom s (op :: ops) = runFrom (applyOp s op) ops := rfl
    have hhist : histFrom s (op :: ops)
        = appendedBy s op ++ histFrom (applyOp s op) ops := rfl
    rcases op with ⟨c, k, v, t⟩ | ⟨c, k, t⟩ | ⟨c, k⟩ | mv
    · -- upsert appends one pair that moves into the store
      refine ⟨rem, ?_, by rw [hrun]; exact hbound⟩
      rw [hrun, hhist]
      have hstep : (allPairs s ++ appendedBy s (.upsertW c k v t)).Perm
          (allPairs (applyOp s (.upsertW c k v t))) :=
        (allPairs_upsert s c k v t).symm
      have h0 : allPairs s ++ (appendedBy s (.upsertW c k v t)
            ++ histFrom (applyOp s (.upsertW c k v t)) ops)
          = (allPairs s ++ appendedBy s (.upsertW c k v t))
            ++ histFrom (applyOp s (.upsertW c k v t)) ops := by
        rw [List.append_assoc]
      rw [h0]
      exact (hstep.append_right _).trans hperm
    · -- delete likewise (or appends nothing)
      refine ⟨rem, ?_, by rw [hrun]; exact hbound⟩
      rw [hrun, hhist]
      have hstep : (allPairs s ++ appendedBy s (.deleteW c k t)).Perm
          (allPairs (applyOp s (.deleteW c k t))) :=
        (allPairs_delete s c k t).symm
      have h0 : allPairs s ++ (appendedBy s (.deleteW c k t)
            ++ histFrom (applyOp s (.deleteW c k t)) ops)
          = (allPairs s ++ appendedBy s (.deleteW c k t))
            ++ histFrom (applyOp s (.deleteW c k t)) ops := by
        rw [List.append_assoc]
      rw [h0]
      exact (hstep.append_right _).trans hperm
    · -- evict removes a log whose ids sit at or below the final watermark
      obtain ⟨rem₀, hperm₀, hbound₀⟩ := evict_decomp s c k inv
      refine ⟨rem ++ rem₀, ?_, ?_⟩
      · rw [hrun, hhist]
        rw [show appendedBy s (.evictW c k) = [] from rfl, List.nil_append]
        have h2 : ((allPairs (applyOp s (.evictW c k)) ++ rem₀)
              ++ histFrom (applyOp s (.evictW c k)) ops).Perm
            ((allPairs (applyOp s (.evictW c k))
              ++ histFrom (applyOp s (.evictW c k)) ops) ++ rem₀) := by
          rw [← Multiset.coe_eq_coe]
          simp only [← Multiset.coe_add]
          abel
        refine ((hperm₀.append_right _).trans (h2.trans
          ((hperm.append_right _).trans (List.Perm.of_eq ?_))))
        rw [List.append_assoc]
      · intro p hp
        rw [hrun]
        rcases List.mem_append.mp hp with h | h
        · exact hbound p h
        · exact le_trans (hbound₀ p h) hwm
    · -- garbage_collect changes nothing
      refine ⟨rem, ?_, by rw [hrun]; exact hbound⟩
      rw [hrun, hhist]
      rw [show appendedBy s (.gcW mv) = [] from rfl, List.nil_append]
      have hgc : applyOp s (.gcW mv) = s := applyOp_gc s mv
      rw [hgc] at hperm ⊢
      exact hperm

/-! ## Claim C2: the change-feed endpoint -/

/-- C2 (amended): for every reachable store and request: if
`start < highest_removed_tombstone_id`, the response is the empty change
list with `needs_rollback = true` and the current maximum transaction id
(this branch holds for *every* request).  Otherwise — provided the request
carries no (nonempty) predicate and its collection filter is absent or a
nonempty name — `needs_rollback` is `false` and the changes are exactly the
first `limit` records, in ascending transaction-id order, of *all records
ever appended* with id above `start` under the collection filter: nothing
is silently skipped.  (Requests with a predicate instead raise
`AttributeError` from the missing `query_parser` — see C1.) -/
theorem http_get_changes_rollback_sound (ops : List WriteOp) (start : Int)
    (limit : Nat) (whereQ collection : Option String) :
    (start < (runFrom initState ops).highest_removed_tombstone_id →
      http_get_changes (runFrom initState ops) start limit whereQ collection
        = .ok ⟨[], (runFrom initState ops).current_transaction_id, true⟩)
    ∧ ((runFrom initState ops).highest_removed_tombstone_id ≤ start →
       strTruthy whereQ = false → collFilterOk collection = true →
        http_get_changes (runFrom initState ops) start limit whereQ collection
          = .ok ⟨((postStartDocs ops start collection).take limit).map
              (fun d => (d, _infer_operation d)),
              (runFrom initState ops).current_transaction_id, false⟩) := by
  constructor
  · intro hlt
    unfold http_get_changes
    rw [if_pos hlt]
  · intro hge hw hok
    have inv : StoreInv (runFrom initState ops) :=
      storeInv_runFrom ops initState storeInv_init
    obtain ⟨removed, hperm, hbound⟩ := hist_decomp ops initState storeInv_init
    have hinit : allPairs initState = [] := rfl
    rw [hinit, List.nil_append] at hperm
    have hfilt := hperm.filter
      (fun p : String × Document => collMatch collection p.1 && start < p.2.transaction_id)
    have hremnil : removed.filter
        (fun p : String × Document => collMatch collection p.1 && start < p.2.transaction_id)
        = [] := by
      rw [List.filter_eq_nil_iff]
      intro p hp
      have h1 := hbound p hp
      simp only [Bool.and_eq_true, decide_eq_true_eq, not_and]
      intro _
      omega
    rw [List.filter_append, hremnil, List.append_nil] at hfilt
    have hscan : (allDocsScanned (runFrom initState ops) collection).filter
          (fun d => start < d.transaction_id)
        = (((allPairs (runFrom initState ops)).filter
            (fun p => collMatch collection p.1 && start < p.2.transaction_id))).map
            (fun p => p.2) := by
      cases collection with
      | none =>
        rw [allDocsScanned_none _ inv.keysND, List.filter_map]
        rfl
      | some cf =>
        have hcf : cf ≠ "" := by simpa [collFilterOk] using hok
        rw [allDocsScanned_some _ cf hcf inv.keysND, List.filter_map,
          List.filter_filter]
        congr 1
        apply List.filter_congr
        intro p _
        simp only [collMatch, if_neg hcf, Function.comp_apply, Bool.and_comm]
    have hAB : ((((allPairs (runFrom initState ops)).filter
          (fun p => collMatch collection p.1 && start < p.2.transaction_id))).map
          (fun p => p.2)).Perm
        (((histFrom initState ops).filter
          (fun p => collMatch collection p.1 && start < p.2.transaction_id)).map
          (fun p => p.2)) :=
      (hfilt.map _).symm
    have hndA : ((((allPairs (runFrom initState ops)).filter
          (fun p => collMatch collection p.1 && start < p.2.transaction_id))).map
          (fun p => p.2)).map (fun d => d.transaction_id)
        |>.Nodup := by
      rw [List.map_map]
      exact (List.Sublist.map _ (List.filter_sublist _)).nodup inv.txND
    have hsorteq : pySortDocs ((allDocsScanned (runFrom initState ops) collection).filter
          (fun d => start < d.transaction_id))
        = postStartDocs ops start collection := by
      unfold postStartDocs
      apply eq_of_perm_of_pairwise_lt (fun d : Document => d.transaction_id)
      · refine (perm_pySortDocs _).trans ?_
        rw [hscan]
        exact hAB.trans (perm_pySortDocs _).symm
      · refine pairwise_lt_of_sorted_nodup (fun d : Document => d.transaction_id) _
          (sorted_pySortDocs _) ?_
        rw [((perm_pySortDocs _).map (fun d => d.transaction_id)).nodup_iff, hscan]
        exact hndA
      · refine pairwise_lt_of_sorted_nodup (fun d : Document => d.transaction_id) _
          (sorted_pySortDocs _) ?_
        rw [((perm_pySortDocs _).map (fun d => d.transaction_id)).nodup_iff]
        exact ((hAB.map (fun d => d.transaction_id)).nodup_iff).mp hndA
    unfold http_get_changes
    rw [if_neg (by omega)]
    unfold get_changes_after
    rw [if_neg (by rw [hw]; simp)]
    rw [pySortPairs_map, hsorteq, ← List.map_take]

/-- C2 witness: on the store built by one upsert, a cursor of 0 with no
filters gets the single change and `needs_rollback = false`, via the
theorem with all hypotheses discharged by computation. -/
theorem http_get_changes_rollback_sound_witness :
    http_get_changes (runFrom initState [WriteOp.upsertW "c" "k" (JValue.int 1) 0])
        0 2 none none
      = .ok ⟨((postStartDocs [WriteOp.upsertW "c" "k" (JValue.int 1) 0] 0 none).take 2).map
          (fun d => (d, _infer_operation d)),
          (runFrom initState
            [WriteOp.upsertW "c" "k" (JValue.int 1) 0]).current_transaction_id,
          false⟩ :=
  (http_get_changes_rollback_sound [WriteOp.upsertW "c" "k" (JValue.int 1) 0]
    0 2 none none).2 (by decide) rfl rfl

/-- C2 counterexample: a change-feed request carrying a predicate, on a
store with a record past the cursor, produces no `ChangesResponse` at all —
the handler propagates `AttributeError` (an HTTP 500) — refuting the
claim's quantification over every request. -/
theorem http_get_changes_counterexample :
    http_get_changes ⟨[("x", [("k", [⟨"k", JValue.int 1, 1, 0, 1⟩])])], 1, 0⟩ 0 2
        (some "value.a = 1") none
      = .error (.attributeError "'KeyValueStore' object has no attribute 'query_parser'") :=
  rfl

/-! ## C6: the comparison operators -/

theorem pyLt_num (x y : JValue) (qx qy : ℚ) (hx : toNum? x = some qx)
    (hy : toNum? y = some qy) : pyLt x y = .ok (decide (qx < qy)) := by
  cases x <;> cases y <;> simp_all [pyLt, toNum?]

theorem pyLe_num (x y : JValue) (qx qy : ℚ) (hx : toNum? x = some qx)
    (hy : toNum? y = some qy) : pyLe x y = .ok (decide (qx ≤ qy)) := by
  cases x <;> cases y <;> simp_all [pyLe, toNum?]

theorem pyLt_null_left (y : JValue) :
    pyLt JValue.null y = .error (.typeError "unorderable types") := by
  cases y <;> simp [pyLt, toNum?]

theorem pyLt_null_right (x : JValue) :
    pyLt x JValue.null = .error (.typeError "unorderable types") := by
  cases x <;> simp [pyLt, toNum?]

theorem pyLe_null_left (y : JValue) :
    pyLe JValue.null y = .error (.typeError "unorderable types") := by
  cases y <;> simp [pyLe, toNum?]

theorem pyLe_null_right (x : JValue) :
    pyLe x JValue.null = .error (.typeError "unorderable types") := by
  cases x <;> simp [pyLe, toNum?]

theorem pyLt_obj_left (f : List (String × JValue)) (y : JValue) :
    pyLt (JValue.obj f) y = .error (.typeError "unorderable types") := by
  cases y <;> simp [pyLt, toNum?]

theorem pyLt_obj_right (f : List (String × JValue)) (x : JValue) :
    pyLt x (JValue.obj f) = .error (.typeError "unorderable types") := by
  cases x <;> simp [pyLt, toNum?]

theorem pyLe_obj_left (f : List (String × JValue)) (y : JValue) :
    pyLe (JValue.obj f) y = .error (.typeError "unorderable types") := by
  cases y <;> simp [pyLe, toNum?]

theorem pyLe_obj_right (f : List (String × JValue)) (x : JValue) :
    pyLe x (JValue.obj f) = .error (.typeError "unorderable types") := by
  cases x <;> simp [pyLe, toNum?]

theorem pyLt_str_num (s : String) (y : JValue) (qy : ℚ) (hy : toNum? y = some qy) :
    pyLt (JValue.str s) y = .error (.typeError "unorderable types") := by
  cases y <;> simp_all [pyLt, toNum?]

theorem pyLt_num_str (s : String) (y : JValue) (qy : ℚ) (hy : toNum? y = some qy) :
    pyLt y (JValue.str s) = .error (.typeError "unorderable types") := by
  cases y <;> simp_all [pyLt, toNum?]

theorem pyLe_str_num (s : String) (y : JValue) (qy : ℚ) (hy : toNum? y = some qy) :
    pyLe (JValue.str s) y = .error (.typeError "unorderable types") := by
  cases y <;> simp_all [pyLe, toNum?]

theorem pyLe_num_str (s : String) (y : JValue) (qy : ℚ) (hy : toNum? y = some qy) :
    pyLe y (JValue.str s) = .error (.typeError "unorderable types") := by
  cases y <;> simp_all [pyLe, toNum?]

/-- C6, counterexample: the claim says the `<`/`<=`/`>`/`>=` lambdas
of `OPERATORS` never raise, and return `false` whenever either side is
non-numeric.  In fact: a null operand — the resolution of a missing field,
as `_get_field_value` shows on a document without an `age` field — raises
`TypeError` (Python `None > 25`); a boolean compares *numerically*
(`True > 0` is true), not as `false`; two strings compare
lexicographically (`'a' < 'b'` is true); and a string against a number
raises `TypeError` as well. -/
theorem comparison_operator_counterexample :
    applyOperator .gtOp JValue.null (JValue.int 25)
      = .error (.typeError "unorderable types")
    ∧ applyOperator .gtOp (JValue.bool true) (JValue.int 0) = .ok true
    ∧ applyOperator .ltOp (JValue.str "a") (JValue.str "b") = .ok true
    ∧ applyOperator .ltOp (JValue.str "x") (JValue.int 3)
      = .error (.typeError "unorderable types")
    ∧ _get_field_value ⟨"k", JValue.obj [("x", JValue.int 20)], 1, 0, 1⟩
        "value.age".data = JValue.null := by
  refine ⟨?_, ?_, ?_, ?_, rfl⟩
  · simp [applyOperator, pyLt, toNum?]
  · simp [applyOperator, pyLt, toNum?]
  · simp [applyOperator, pyLt]
    decide
  · simp [applyOperator, pyLt, toNum?]

/-- C6 (amended): what the `<`/`<=`/`>`/`>=` lambdas of `OPERATORS`
actually do when applied to a resolved field value and a parsed literal:
when both sides are numeric — Python booleans included, `bool` being an
`int` subclass — the usual numeric comparison is returned; two strings
compare lexicographically; and every comparison involving a null operand
(including a missing field, which resolves to null), an object operand, or
a string against a number raises `TypeError` instead of evaluating to
false. -/
theorem comparison_operator_semantics :
    (∀ x y qx qy, toNum? x = some qx → toNum? y = some qy →
        applyOperator .ltOp x y = .ok (decide (qx < qy))
        ∧ applyOperator .leOp x y = .ok (decide (qx ≤ qy))
        ∧ applyOperator .gtOp x y = .ok (decide (qy < qx))
        ∧ applyOperator .geOp x y = .ok (decide (qy ≤ qx)))
    ∧ (∀ s t, applyOperator .ltOp (JValue.str s) (JValue.str t)
        = .ok (decide (s < t)))
    ∧ (∀ op, (op = PyOp.ltOp ∨ op = PyOp.leOp ∨ op = PyOp.gtOp ∨ op = PyOp.geOp) →
        (∀ y, applyOperator op JValue.null y
            = .error (.typeError "unorderable types"))
        ∧ (∀ x, applyOperator op x JValue.null
            = .error (.typeError "unorderable types"))
        ∧ (∀ s y qy, toNum? y = some qy →
            applyOperator op (JValue.str s) y
              = .error (.typeError "unorderable types")
            ∧ applyOperator op y (JValue.str s)
              = .error (.typeError "unorderable types"))
        ∧ (∀ f y, applyOperator op (JValue.obj f) y
            = .error (.typeError "unorderable types"))
        ∧ (∀ f y, applyOperator op y (JValue.obj f)
            = .error (.typeError "unorderable types"))) := by
  refine ⟨?_, ?_, ?_⟩
  · intro x y qx qy hx hy
    exact ⟨pyLt_num x y qx qy hx hy, pyLe_num x y qx qy hx hy,
      pyLt_num y x qy qx hy hx, pyLe_num y x qy qx hy hx⟩
  · intro s t
    simp [applyOperator, pyLt]
  · intro op hop
    rcases hop with h | h | h | h <;> subst h
    · exact ⟨fun y => pyLt_null_left y, fun x => pyLt_null_right x,
        fun s y qy hy => ⟨pyLt_str_num s y qy hy, pyLt_num_str s y qy hy⟩,
        fun f y => pyLt_obj_left f y, fun f y => pyLt_obj_right f y⟩
    · exact ⟨fun y => pyLe_null_left y, fun x => pyLe_null_right x,
        fun s y qy hy => ⟨pyLe_str_num s y qy hy, pyLe_num_str s y qy hy⟩,
        fun f y => pyLe_obj_left f y, fun f y => pyLe_obj_right f y⟩
    · exact ⟨fun y => pyLt_null_right y, fun x => pyLt_null_left x,
        fun s y qy hy => ⟨pyLt_num_str s y qy hy, pyLt_str_num s y qy hy⟩,
        fun f y => pyLt_obj_right f y, fun f y => pyLt_obj_left f y⟩
    · exact ⟨fun y => pyLe_null_right y, fun x => pyLe_null_left x,
        fun s y qy hy => ⟨pyLe_num_str s y qy hy, pyLe_str_num s y qy hy⟩,
        fun f y => pyLe_obj_right f y, fun f y => pyLe_obj_left f y⟩

/-- C6 (amended), witness: the numeric branch at `30 > 25` and the
null branch at `None < 5`. -/
theorem comparison_operator_semantics_witness :
    applyOperator .gtOp (JValue.int 30) (JValue.int 25) = .ok true
    ∧ applyOperator .ltOp JValue.null (JValue.int 5)
        = .error (.typeError "unorderable types") := by
  constructor
  · have h := (comparison_operator_semantics.1 (JValue.int 30) (JValue.int 25)
      ((30 : Int) : ℚ) ((25 : Int) : ℚ) rfl rfl).2.2.1
    rw [h]
    norm_num
  · exact (comparison_operator_semantics.2.2 .ltOp (Or.inl rfl)).1 (JValue.int 5)

/-! ## C10: the query path's first segment -/

theorem word_not_space {c : Char} (h : isWordChar c = true) : isSpaceChar c = false := by
  revert h
  simp only [isWordChar, isSpaceChar, Bool.or_eq_true, Bool.and_eq_true,
    decide_eq_true_eq, Bool.or_eq_false_iff, decide_eq_false_iff_not]
  omega

theorem digit_not_space {c : Char} (h : isDigitChar c = true) : isSpaceChar c = false := by
  revert h
  simp only [isDigitChar, isSpaceChar, Bool.or_eq_true, Bool.and_eq_true,
    decide_eq_true_eq, Bool.or_eq_false_iff, decide_eq_false_iff_not]
  omega

theorem digit_not_cmp {c : Char} (h : isDigitChar c = true) : isCmpChar c = false := by
  revert h
  simp only [isDigitChar, isCmpChar, Bool.or_eq_true, Bool.and_eq_true,
    decide_eq_true_eq, Bool.or_eq_false_iff, decide_eq_false_iff_not]
  omega

theorem word_ne_dot {c : Char} (h : isWordChar c = true) : ¬ c = '.' := by
  intro he
  rw [he] at h
  exact absurd h (by decide)

theorem takeWhile_append_stop {α} (p : α → Bool) (xs : List α) (y : α) (ys : List α)
    (hxs : ∀ a ∈ xs, p a = true) (hy : p y = false) :
    (xs ++ y :: ys).takeWhile p = xs := by
  induction xs with
  | nil => simp [List.takeWhile_cons, hy]
  | cons a t ih =>
    simp only [List.cons_append, List.takeWhile_cons, hxs a (by simp), if_true]
    rw [ih (fun b hb => hxs b (by simp [hb]))]

theorem dropWhile_append_stop {α} (p : α → Bool) (xs : List α) (y : α) (ys : List α)
    (hxs : ∀ a ∈ xs, p a = true) (hy : p y = false) :
    (xs ++ y :: ys).dropWhile p = y :: ys := by
  induction xs with
  | nil => simp [List.dropWhile_cons, hy]
  | cons a t ih =>
    simp only [List.cons_append, List.dropWhile_cons, hxs a (by simp), if_true]
    exact ih (fun b hb => hxs b (by simp [hb]))

theorem dropWhile_append_mid {α} (p : α → Bool) (u : List α) (y : α) (v : List α)
    (hy : p y = false) :
    (u ++ y :: v).dropWhile p = u.dropWhile p ++ y :: v := by
  induction u with
  | nil => simp [List.dropWhile_cons, hy]
  | cons a t ih =>
    by_cases h : p a <;> simp [List.dropWhile_cons, h, ih]

theorem takeWhile_eq_self_of_all {α} (p : α → Bool) (l : List α)
    (hl : ∀ a ∈ l, p a = true) : l.takeWhile p = l := by
  induction l with
  | nil => rfl
  | cons a t ih =>
    simp only [List.takeWhile_cons, hl a (by simp), if_true]
    rw [ih (fun b hb => hl b (by simp [hb]))]

theorem dropWhile_eq_nil_of_all {α} (p : α → Bool) (l : List α)
    (hl : ∀ a ∈ l, p a = true) : l.dropWhile p = [] := by
  induction l with
  | nil => rfl
  | cons a t ih =>
    simp only [List.dropWhile_cons, hl a (by simp), if_true]
    exact ih (fun b hb => hl b (by simp [hb]))

theorem pyStrip_shape (X : List Char) (c : Char) (t : List Char)
    (hX : X ≠ []) (hXw : ∀ x ∈ X, isWordChar x = true) (hc : isWordChar c = true) :
    pyStrip (X ++ '.' :: c :: t)
      = X ++ '.' :: c :: (t.reverse.dropWhile isSpaceChar).reverse := by
  obtain ⟨a, X', rfl⟩ : ∃ a X', X = a :: X' := by
    cases X with
    | nil => exact absurd rfl hX
    | cons a X' => exact ⟨a, X', rfl⟩
  unfold pyStrip
  rw [List.cons_append, List.dropWhile_cons]
  rw [if_neg (by simp [word_not_space (hXw a (by simp))])]
  have h2 : (a :: (X' ++ '.' :: c :: t)).reverse
      = t.reverse ++ c :: ('.' :: (a :: X').reverse) := by
    simp
  rw [h2, dropWhile_append_mid _ _ _ _ (word_not_space hc)]
  simp

theorem munchDotRuns_not_dot (s : List Char) (hs : s.head? ≠ some '.') :
    munchDotRuns s = ([], s) := by
  cases s with
  | nil => simp [munchDotRuns]
  | cons a t =>
    rw [munchDotRuns]
    simp only [List.head?_cons, ne_eq, Option.some.injEq] at hs
    simp [hs]

theorem munchPath_append (X : List Char) (c : Char) (t : List Char)
    (hX : X ≠ []) (hXw : ∀ x ∈ X, isWordChar x = true) :
    munchPath (X ++ '.' :: c :: t)
      = some (X ++ (munchDotRuns ('.' :: c :: t)).1, (munchDotRuns ('.' :: c :: t)).2) := by
  unfold munchPath
  rw [takeWhile_append_stop _ _ _ _ hXw (by decide),
    dropWhile_append_stop _ _ _ _ hXw (by decide)]
  simp [List.isEmpty_eq_true, hX]

theorem munchDotRuns_cons_shape (c : Char) (t : List Char) (hc : isWordChar c = true) :
    ∃ D', (munchDotRuns ('.' :: c :: t)).1 = '.' :: D' := by
  rw [munchDotRuns]
  have : (c :: t).takeWhile isWordChar = c :: t.takeWhile isWordChar := by
    simp [List.takeWhile_cons, hc]
  simp [this]

theorem munchDotRuns_joinDots (s : List Char) (segs : List (List Char)) (r : List Char)
    (hw : ∀ q ∈ s :: segs, q ≠ [] ∧ ∀ x ∈ q, isWordChar x = true) :
    munchDotRuns ('.' :: (joinDots (s :: segs) ++ ' ' :: r))
      = ('.' :: joinDots (s :: segs), ' ' :: r) := by
  induction segs generalizing s with
  | nil =>
    rw [munchDotRuns]
    have hs := hw s (by simp)
    rw [show joinDots [s] = s from rfl]
    rw [takeWhile_append_stop _ _ _ _ hs.2 (by decide),
      dropWhile_append_stop _ _ _ _ hs.2 (by decide)]
    rw [munchDotRuns_not_dot (' ' :: r) (by simp)]
    simp [List.isEmpty_eq_true, hs.1]
  | cons s2 rest ih =>
    rw [munchDotRuns]
    have hs := hw s (by simp)
    rw [show joinDots (s :: s2 :: rest) = s ++ '.' :: joinDots (s2 :: rest) from rfl]
    rw [List.append_assoc, List.cons_append]
    rw [takeWhile_append_stop _ _ _ _ hs.2 (by decide),
      dropWhile_append_stop _ _ _ _ hs.2 (by decide)]
    rw [ih s2 (fun q hq => hw q (by simp at hq; rcases hq with h | h <;> simp [h]))]
    simp [List.isEmpty_eq_true, hs.1]

theorem munchPath_joinDots (segs : List (List Char)) (r : List Char)
    (hsegs : segs ≠ []) (hw : ∀ q ∈ segs, q ≠ [] ∧ ∀ x ∈ q, isWordChar x = true) :
    munchPath (joinDots segs ++ ' ' :: r) = some (joinDots segs, ' ' :: r) := by
  cases segs with
  | nil => exact absurd rfl hsegs
  | cons s rest =>
    cases rest with
    | nil =>
      unfold munchPath
      have hs := hw s (by simp)
      rw [show joinDots [s] = s from rfl]
      rw [takeWhile_append_stop _ _ _ _ hs.2 (by decide),
        dropWhile_append_stop _ _ _ _ hs.2 (by decide)]
      rw [munchDotRuns_not_dot (' ' :: r) (by simp)]
      simp [List.isEmpty_eq_true, hs.1]
    | cons s2 rest2 =>
      unfold munchPath
      have hs := hw s (by simp)
      rw [show joinDots (s :: s2 :: rest2) = s ++ '.' :: joinDots (s2 :: rest2) from rfl]
      rw [List.append_assoc, List.cons_append]
      rw [takeWhile_append_stop _ _ _ _ hs.2 (by decide),
        dropWhile_append_stop _ _ _ _ hs.2 (by decide)]
      rw [munchDotRuns_joinDots s2 rest2 r
        (fun q hq => hw q (by simp at hq; rcases hq with h | h <;> simp [h]))]
      simp [List.isEmpty_eq_true, hs.1]

theorem pySplitChar_append_sep (sep : Char) (X D : List Char)
    (hX : ∀ x ∈ X, ¬ x = sep) :
    pySplitChar sep (X ++ sep :: D) = X :: pySplitChar sep D := by
  induction X with
  | nil => simp [pySplitChar]
  | cons a T ih =>
    rw [List.cons_append, pySplitChar]
    rw [if_neg (hX a (by simp))]
    rw [ih (fun x hx => hX x (by simp [hx]))]

theorem pySplitChar_ne_nil (sep : Char) (s : List Char) :
    pySplitChar sep s ≠ [] := by
  cases s with
  | nil => simp [pySplitChar]
  | cons a t =>
    rw [pySplitChar]
    by_cases h : a = sep
    · simp [h]
    · rw [if_neg h]
      rcases he : pySplitChar sep t with _ | ⟨seg, segs⟩ <;> simp

theorem get_field_value_drops_head (doc : Document) (X rest : List Char)
    (hX : ∀ x ∈ X, ¬ x = '.') :
    _get_field_value doc (X ++ '.' :: rest)
      = walkPath doc.value (pySplitChar '.' rest) := by
  unfold _get_field_value
  rw [pySplitChar_append_sep '.' X rest hX]
  rfl

theorem parse_query_append_cases (X : List Char) (c : Char) (t : List Char)
    (hX : X ≠ []) (hXw : ∀ x ∈ X, isWordChar x = true) (hc : isWordChar c = true) :
    (∃ D op val, parse_query (X ++ '.' :: c :: t) = .ok (X ++ '.' :: D, op, val)
        ∧ parse_query ("value".data ++ '.' :: c :: t)
            = .ok ("value".data ++ '.' :: D, op, val))
    ∨ (∃ e, parse_query (X ++ '.' :: c :: t) = .error e
        ∧ parse_query ("value".data ++ '.' :: c :: t) = .error e) := by
  have hv : ("value".data : List Char) ≠ [] := by decide
  have hvw : ∀ x ∈ ("value".data : List Char), isWordChar x = true := by decide
  unfold parse_query
  rw [pyStrip_shape X c t hX hXw hc, pyStrip_shape _ c t hv hvw hc]
  dsimp only
  unfold patternBetween patternInList patternIsNull patternCmp
  rw [munchPath_append X c _ hX hXw, munchPath_append _ c _ hv hvw]
  obtain ⟨D', hD'⟩ := munchDotRuns_cons_shape c ((t.reverse.dropWhile isSpaceChar).reverse) hc
  rw [hD']
  simp only [Option.bind_eq_bind, Option.some_bind, Option.pure_def]
  rcases hb : restBetween (munchDotRuns ('.' :: c :: (t.reverse.dropWhile isSpaceChar).reverse)).2
    with _ | ⟨lo, hi⟩
  · simp only [Option.none_bind]
    rcases hil : restInList (munchDotRuns ('.' :: c :: (t.reverse.dropWhile isSpaceChar).reverse)).2
      with _ | ⟨opTxt, parenTxt⟩
    · simp only [Option.none_bind]
      rcases hin : restIsNull (munchDotRuns ('.' :: c :: (t.reverse.dropWhile isSpaceChar).reverse)).2
        with _ | opN
      · simp only [Option.none_bind]
        rcases hcm : restCmp (munchDotRuns ('.' :: c :: (t.reverse.dropWhile isSpaceChar).reverse)).2
          with _ | ⟨o, l⟩
        · simp only [Option.none_bind]
          exact Or.inr ⟨.valueError "Invalid query syntax", rfl, rfl⟩
        · simp only [Option.some_bind]
          exact Or.inl ⟨D', pyUpper o, parse_value l, rfl, rfl⟩
      · simp only [Option.some_bind]
        exact Or.inr ⟨.valueError "not enough values to unpack", rfl, rfl⟩
    · simp only [Option.some_bind]
      exact Or.inl ⟨D', pyUpper opTxt, parse_value parenTxt, rfl, rfl⟩
  · simp only [Option.some_bind]
    exact Or.inl ⟨D', "BETWEEN".data,
      .arr [.int ((digitsToNat lo : Nat) : Int), .int ((digitsToNat hi : Nat) : Int)], rfl, rfl⟩

theorem evalWhereClause_first_segment (doc : Document) (X : List Char) (c : Char)
    (t : List Char) (hX : X ≠ []) (hXw : ∀ x ∈ X, isWordChar x = true)
    (hc : isWordChar c = true) :
    evalWhereClause doc (X ++ '.' :: c :: t)
      = evalWhereClause doc ("value".data ++ '.' :: c :: t) := by
  rcases parse_query_append_cases X c t hX hXw hc with ⟨D, op, val, h1, h2⟩ | ⟨e, h1, h2⟩
  · unfold evalWhereClause
    rw [h1, h2]
    dsimp only
    cases ho : OPERATORS op with
    | none => rfl
    | some o =>
      dsimp only
      rw [get_field_value_drops_head doc X D (fun x hx => word_ne_dot (hXw x hx)),
        get_field_value_drops_head doc "value".data D (by decide)]
  · unfold evalWhereClause
    rw [h1, h2]

theorem toUpper_of_digit {c : Char} (h : isDigitChar c = true) : c.toUpper = c := by
  simp only [isDigitChar, Bool.and_eq_true, decide_eq_true_eq] at h
  unfold Char.toUpper
  show (if c.toNat ≥ 97 ∧ c.toNat ≤ 122 then Char.ofNat (c.toNat - 32) else c) = c
  rw [if_neg (by omega)]

theorem dropWhile_eq_self_of_all_neg {α} (p : α → Bool) (l : List α)
    (hl : ∀ a ∈ l, p a = false) : l.dropWhile p = l := by
  cases l with
  | nil => rfl
  | cons a t => simp [List.dropWhile_cons, hl a (by simp)]

theorem pyStrip_of_no_space (l : List Char) (hl : ∀ x ∈ l, isSpaceChar x = false) :
    pyStrip l = l := by
  unfold pyStrip
  rw [dropWhile_eq_self_of_all_neg _ l hl,
    dropWhile_eq_self_of_all_neg _ l.reverse (fun a ha => hl a (List.mem_reverse.mp ha)),
    List.reverse_reverse]

theorem pyUpper_of_digits (l : List Char) (hd : ∀ x ∈ l, isDigitChar x = true) :
    pyUpper l = l := by
  unfold pyUpper
  calc l.map Char.toUpper
      = l.map id := List.map_congr_left (fun x hx => toUpper_of_digit (hd x hx))
    _ = l := List.map_id l

theorem pyInt_digits (c : Char) (t : List Char)
    (hd : ∀ x ∈ c :: t, isDigitChar x = true) :
    pyInt? (c :: t) = some ((digitsToNat (c :: t) : Nat) : Int) := by
  have hc := hd c (by simp)
  unfold pyInt?
  rw [pyStrip_of_no_space _ (fun x hx => digit_not_space (hd x hx))]
  dsimp only
  split
  · next ds heq =>
    exfalso
    have hcm : c = '-' := (List.cons.inj heq).1
    rw [hcm] at hc
    exact absurd hc (by decide)
  · next ds heq =>
    exfalso
    have hcp : c = '+' := (List.cons.inj heq).1
    rw [hcp] at hc
    exact absurd hc (by decide)
  · rw [if_pos]
    simp only [List.isEmpty_cons, Bool.not_false, Bool.true_and, List.all_eq_true]
    exact fun x hx => hd x hx

theorem parse_value_digits (l : List Char) (hne : l ≠ [])
    (hd : ∀ x ∈ l, isDigitChar x = true) :
    parse_value l = .int ((digitsToNat l : Nat) : Int) := by
  obtain ⟨c, t, rfl⟩ : ∃ c t, l = c :: t := by
    cases l with
    | nil => exact absurd rfl hne
    | cons c t => exact ⟨c, t, rfl⟩
  have hc := hd c (by simp)
  unfold parse_value
  rw [if_neg, if_neg, if_neg]
  · rw [pyInt_digits c t hd]
  · intro h
    have hm : ('.' : Char) ∈ c :: t := List.elem_iff.mp h
    exact absurd (hd '.' hm) (by decide)
  · intro h
    have h1 : (c :: t).head? = some '(' := by
      rcases Bool.and_eq_true _ _ |>.mp h with ⟨h1, _⟩
      simpa using h1
    have hcp : c = '(' := by simpa using h1
    rw [hcp] at hc
    exact absurd hc (by decide)
  · intro h
    rw [pyUpper_of_digits _ hd] at h
    have hm : ('N' : Char) ∈ c :: t := by rw [h]; decide
    exact absurd (hd 'N' hm) (by decide)

theorem cmp_not_space {c : Char} (h : isCmpChar c = true) : isSpaceChar c = false := by
  revert h
  simp only [isCmpChar, isSpaceChar, Bool.or_eq_true, decide_eq_true_eq,
    Bool.or_eq_false_iff, decide_eq_false_iff_not]
  omega

theorem restCmp_spaced (opc lit : List Char)
    (hopc : opc ≠ []) (hopcc : ∀ x ∈ opc, isCmpChar x = true)
    (hlit : lit ≠ []) (hld : ∀ x ∈ lit, isDigitChar x = true) :
    restCmp (' ' :: (opc ++ ' ' :: lit)) = some (opc, lit) := by
  obtain ⟨o1, orest, rfl⟩ : ∃ o1 orest, opc = o1 :: orest := by
    cases opc with
    | nil => exact absurd rfl hopc
    | cons o1 orest => exact ⟨o1, orest, rfl⟩
  obtain ⟨c, t, rfl⟩ : ∃ c t, lit = c :: t := by
    cases lit with
    | nil => exact absurd rfl hlit
    | cons c t => exact ⟨c, t, rfl⟩
  have ho1 := hopcc o1 (by simp)
  have hc := hld c (by simp)
  have e1 : (' ' :: ((o1 :: orest) ++ ' ' :: c :: t)).dropWhile isSpaceChar
      = (o1 :: orest) ++ ' ' :: c :: t := by
    rw [List.dropWhile_cons, if_pos (by decide), List.cons_append,
      List.dropWhile_cons, if_neg (by simp [cmp_not_space ho1])]
  have e2 : ((o1 :: orest) ++ ' ' :: c :: t).takeWhile isCmpChar = o1 :: orest :=
    takeWhile_append_stop _ _ _ _ hopcc (by decide)
  have e3 : ((o1 :: orest) ++ ' ' :: c :: t).dropWhile isCmpChar = ' ' :: c :: t :=
    dropWhile_append_stop _ _ _ _ hopcc (by decide)
  have e4 : (' ' :: c :: t).takeWhile isSpaceChar = [' '] := by
    rw [List.takeWhile_cons, if_pos (by decide), List.takeWhile_cons,
      if_neg (by simp [digit_not_space hc])]
  have e5 : (' ' :: c :: t).dropWhile isSpaceChar = c :: t := by
    rw [List.dropWhile_cons, if_pos (by decide)]
    exact dropWhile_eq_self_of_all_neg _ _ (fun x hx => digit_not_space (hld x hx))
  unfold restCmp
  rw [e1]
  dsimp only
  rw [e2, e3, e4, e5]
  rw [if_neg (by simp)]
  rw [takeWhile_eq_self_of_all _ (c :: t) (fun x hx => by
    simp [digit_not_cmp (hld x hx)])]
  rw [if_pos (by simp)]

theorem pyStrip_head_last (a : Char) (m : List Char) (d : Char)
    (ha : isSpaceChar a = false) (hd : isSpaceChar d = false) :
    pyStrip (a :: (m ++ [d])) = a :: (m ++ [d]) := by
  unfold pyStrip
  rw [List.dropWhile_cons, if_neg (by simp [ha])]
  have h2 : (a :: (m ++ [d])).reverse = d :: (m.reverse ++ [a]) := by simp
  rw [h2, List.dropWhile_cons, if_neg (by simp [hd])]
  simp

theorem toUpper_of_cmp {c : Char} (h : isCmpChar c = true) : c.toUpper = c := by
  simp only [isCmpChar, Bool.or_eq_true, decide_eq_true_eq] at h
  unfold Char.toUpper
  show (if c.toNat ≥ 97 ∧ c.toNat ≤ 122 then Char.ofNat (c.toNat - 32) else c) = c
  rw [if_neg (by omega)]

theorem cmp_toUpper_ne (o1 k : Char) (h : isCmpChar o1 = true)
    (hk : isCmpChar k = false) : ¬ o1.toUpper = k := by
  rw [toUpper_of_cmp h]
  intro he
  rw [he] at h
  rw [h] at hk
  exact Bool.true_eq_false.mp hk

theorem spaces1_cmp_head (o1 : Char) (rs : List Char) (h : isCmpChar o1 = true) :
    spaces1 (' ' :: (o1 :: rs)) = some ([' '], o1 :: rs) := by
  unfold spaces1
  have e0 : (' ' :: (o1 :: rs)).takeWhile isSpaceChar = [' '] := by
    rw [List.takeWhile_cons, if_pos (by decide), List.takeWhile_cons,
      if_neg (by simp [cmp_not_space h])]
  have e1 : (' ' :: (o1 :: rs)).dropWhile isSpaceChar = o1 :: rs := by
    rw [List.dropWhile_cons, if_pos (by decide), List.dropWhile_cons,
      if_neg (by simp [cmp_not_space h])]
  rw [e0, e1]
  rw [if_neg (by simp)]

theorem restBetween_cmp_head (o1 : Char) (rs : List Char) (h : isCmpChar o1 = true) :
    restBetween (' ' :: (o1 :: rs)) = none := by
  unfold restBetween
  rw [spaces1_cmp_head o1 rs h]
  simp only [Option.bind_eq_bind, Option.some_bind]
  rw [show matchCI "BETWEEN".data (o1 :: rs) = none from by
    rw [matchCI]; rw [if_neg (cmp_toUpper_ne o1 'B' h (by decide))]]
  rfl

theorem restInList_cmp_head (o1 : Char) (rs : List Char) (h : isCmpChar o1 = true) :
    restInList (' ' :: (o1 :: rs)) = none := by
  unfold restInList
  rw [spaces1_cmp_head o1 rs h]
  simp only [Option.bind_eq_bind, Option.some_bind]
  rw [show matchCIcap "NOT".data (o1 :: rs) = none from by
    rw [matchCIcap]; rw [if_neg (cmp_toUpper_ne o1 'N' h (by decide))]]
  rw [show matchCIcap "IN".data (o1 :: rs) = none from by
    rw [matchCIcap]; rw [if_neg (cmp_toUpper_ne o1 'I' h (by decide))]]
  rfl

theorem restIsNull_cmp_head (o1 : Char) (rs : List Char) (h : isCmpChar o1 = true) :
    restIsNull (' ' :: (o1 :: rs)) = none := by
  unfold restIsNull
  rw [spaces1_cmp_head o1 rs h]
  simp only [Option.bind_eq_bind, Option.some_bind]
  rw [show matchCIcap "IS".data (o1 :: rs) = none from by
    rw [matchCIcap]; rw [if_neg (cmp_toUpper_ne o1 'I' h (by decide))]]
  rfl

theorem parse_query_cmp_accepts (X0 : List Char) (segs : List (List Char))
    (opc lit : List Char)
    (hX0 : X0 ≠ []) (hX0w : ∀ x ∈ X0, isWordChar x = true)
    (hsegs : segs ≠ []) (hw : ∀ q ∈ segs, q ≠ [] ∧ ∀ x ∈ q, isWordChar x = true)
    (hop : opc = ['='] ∨ opc = ['!','='] ∨ opc = ['<'] ∨ opc = ['<','=']
        ∨ opc = ['>'] ∨ opc = ['>','='])
    (hlit : lit ≠ []) (hld : ∀ x ∈ lit, isDigitChar x = true) :
    parse_query (joinDots (X0 :: segs) ++ ' ' :: (opc ++ ' ' :: lit))
      = .ok (joinDots (X0 :: segs), opc, .int ((digitsToNat lit : Nat) : Int)) := by
  obtain ⟨a, X0', rfl⟩ : ∃ a X0', X0 = a :: X0' := by
    cases X0 with
    | nil => exact absurd rfl hX0
    | cons a X0' => exact ⟨a, X0', rfl⟩
  obtain ⟨t0, d, rfl⟩ : ∃ t0 d, lit = t0 ++ [d] := by
    rcases List.eq_nil_or_concat lit with h | ⟨t0, d, h⟩
    · exact absurd h hlit
    · exact ⟨t0, d, by simpa using h⟩
  have hd : isDigitChar d = true := hld d (by simp)
  have hw' : ∀ q ∈ (a :: X0') :: segs, q ≠ [] ∧ ∀ x ∈ q, isWordChar x = true := by
    intro q hq
    rcases List.mem_cons.mp hq with h | h
    · subst h; exact ⟨by simp, hX0w⟩
    · exact hw q h
  have hshape : joinDots ((a :: X0') :: segs) ++ ' ' :: (opc ++ ' ' :: (t0 ++ [d]))
      = a :: ((X0' ++ '.' :: joinDots segs ++ ' ' :: opc ++ ' ' :: t0) ++ [d]) := by
    cases segs with
    | nil => exact absurd rfl hsegs
    | cons s r =>
      rw [show joinDots ((a :: X0') :: s :: r) = (a :: X0') ++ '.' :: joinDots (s :: r)
        from rfl]
      simp
  have hstrip : pyStrip (joinDots ((a :: X0') :: segs) ++ ' ' :: (opc ++ ' ' :: (t0 ++ [d])))
      = joinDots ((a :: X0') :: segs) ++ ' ' :: (opc ++ ' ' :: (t0 ++ [d])) := by
    rw [hshape]
    exact pyStrip_head_last a _ d (word_not_space (hX0w a (by simp))) (digit_not_space hd)
  unfold parse_query
  rw [hstrip]
  dsimp only
  unfold patternBetween patternInList patternIsNull patternCmp
  rw [munchPath_joinDots ((a :: X0') :: segs) (opc ++ ' ' :: (t0 ++ [d])) (by simp) hw']
  simp only [Option.bind_eq_bind, Option.some_bind, Option.pure_def]
  rcases hop with h|h|h|h|h|h <;> subst h
  · have hcmp := restCmp_spaced ['='] (t0 ++ [d]) (by decide) (by decide) (by simp) hld
    simp only [List.cons_append, List.nil_append] at hcmp ⊢
    rw [restBetween_cmp_head '=' _ (by decide), restInList_cmp_head '=' _ (by decide),
      restIsNull_cmp_head '=' _ (by decide), hcmp]
    simp only [Option.none_bind, Option.some_bind]
    rw [parse_value_digits _ (by simp) hld]
    rfl
  · have hcmp := restCmp_spaced ['!','='] (t0 ++ [d]) (by decide) (by decide) (by simp) hld
    simp only [List.cons_append, List.nil_append] at hcmp ⊢
    rw [restBetween_cmp_head '!' _ (by decide), restInList_cmp_head '!' _ (by decide),
      restIsNull_cmp_head '!' _ (by decide), hcmp]
    simp only [Option.none_bind, Option.some_bind]
    rw [parse_value_digits _ (by simp) hld]
    rfl
  · have hcmp := restCmp_spaced ['<'] (t0 ++ [d]) (by decide) (by decide) (by simp) hld
    simp only [List.cons_append, List.nil_append] at hcmp ⊢
    rw [restBetween_cmp_head '<' _ (by decide), restInList_cmp_head '<' _ (by decide),
      restIsNull_cmp_head '<' _ (by decide), hcmp]
    simp only [Option.none_bind, Option.some_bind]
    rw [parse_value_digits _ (by simp) hld]
    rfl
  · have hcmp := restCmp_spaced ['<','='] (t0 ++ [d]) (by decide) (by decide) (by simp) hld
    simp only [List.cons_append, List.nil_append] at hcmp ⊢
    rw [restBetween_cmp_head '<' _ (by decide), restInList_cmp_head '<' _ (by decide),
      restIsNull_cmp_head '<' _ (by decide), hcmp]
    simp only [Option.none_bind, Option.some_bind]
    rw [parse_value_digits _ (by simp) hld]
    rfl
  · have hcmp := restCmp_spaced ['>'] (t0 ++ [d]) (by decide) (by decide) (by simp) hld
    simp only [List.cons_append, List.nil_append] at hcmp ⊢
    rw [restBetween_cmp_head '>' _ (by decide), restInList_cmp_head '>' _ (by decide),
      restIsNull_cmp_head '>' _ (by decide), hcmp]
    simp only [Option.none_bind, Option.some_bind]
    rw [parse_value_digits _ (by simp) hld]
    rfl
  · have hcmp := restCmp_spaced ['>','='] (t0 ++ [d]) (by decide) (by decide) (by simp) hld
    simp only [List.cons_append, List.nil_append] at hcmp ⊢
    rw [restBetween_cmp_head '>' _ (by decide), restInList_cmp_head '>' _ (by decide),
      restIsNull_cmp_head '>' _ (by decide), hcmp]
    simp only [Option.none_bind, Option.some_bind]
    rw [parse_value_digits _ (by simp) hld]
    rfl


/-- C10: in a where clause whose path has at least two dot-separated
identifier segments, the first segment is irrelevant.  (i) For every
document and every clause tail, the clause with path `a.c...` evaluates
exactly as the clause with path `value.c...`; (ii) `_get_field_value`
drops the first path segment unconditionally (`field_path.split('.')[1:]`),
resolving the rest against the document's value; (iii) the parser accepts
any multi-segment identifier path, whatever its first segment: a clause
`p <op> <digits>` with `<op>` one of `=`, `!=`, `<`, `<=`, `>`, `>=`
parses to that path, operator and integer literal; (iv) the parser accepts
a clause with path `a.c...` if and only if it accepts the clause with path
`value.c...`. -/
theorem where_clause_first_segment_irrelevant :
    (∀ (doc : Document) (a : List Char) (c : Char) (t : List Char),
        a ≠ [] → (∀ x ∈ a, isWordChar x = true) → isWordChar c = true →
        evalWhereClause doc (a ++ '.' :: c :: t)
          = evalWhereClause doc ("value".data ++ '.' :: c :: t))
    ∧ (∀ (doc : Document) (a rest : List Char), (∀ x ∈ a, ¬ x = '.') →
        _get_field_value doc (a ++ '.' :: rest)
          = walkPath doc.value (pySplitChar '.' rest))
    ∧ (∀ (a : List Char) (segs : List (List Char)) (opc lit : List Char),
        a ≠ [] → (∀ x ∈ a, isWordChar x = true) →
        segs ≠ [] → (∀ q ∈ segs, q ≠ [] ∧ ∀ x ∈ q, isWordChar x = true) →
        (opc = ['='] ∨ opc = ['!','='] ∨ opc = ['<'] ∨ opc = ['<','=']
          ∨ opc = ['>'] ∨ opc = ['>','=']) →
        lit ≠ [] → (∀ x ∈ lit, isDigitChar x = true) →
        parse_query (joinDots (a :: segs) ++ ' ' :: (opc ++ ' ' :: lit))
          = .ok (joinDots (a :: segs), opc, .int ((digitsToNat lit : Nat) : Int)))
    ∧ (∀ (a : List Char) (c : Char) (t : List Char),
        a ≠ [] → (∀ x ∈ a, isWordChar x = true) → isWordChar c = true →
        ((∃ r, parse_query (a ++ '.' :: c :: t) = .ok r)
          ↔ (∃ r, parse_query ("value".data ++ '.' :: c :: t) = .ok r))) := by
  refine ⟨?_, ?_, ?_, ?_⟩
  · exact fun doc a c t h1 h2 h3 => evalWhereClause_first_segment doc a c t h1 h2 h3
  · exact fun doc a rest h => get_field_value_drops_head doc a rest h
  · exact fun a segs opc lit h1 h2 h3 h4 h5 h6 h7 =>
      parse_query_cmp_accepts a segs opc lit h1 h2 h3 h4 h5 h6 h7
  · intro a c t h1 h2 h3
    rcases parse_query_append_cases a c t h1 h2 h3 with ⟨D, op, val, hA, hB⟩ | ⟨e, hA, hB⟩
    · exact ⟨fun _ => ⟨_, hB⟩, fun _ => ⟨_, hA⟩⟩
    · constructor
      · rintro ⟨r, hr⟩
        rw [hA] at hr
        cases hr
      · rintro ⟨r, hr⟩
        rw [hB] at hr
        cases hr

/-- C10, witness: the clause tail `.b > 5` evaluates identically under the
paths `foo.b` and `value.b` on a concrete document, and the clause
`ap.b > 25` parses with path `ap.b` kept intact. -/
theorem where_clause_first_segment_irrelevant_witness :
    evalWhereClause ⟨"k", JValue.obj [("b", JValue.int 7)], 1, 0, 1⟩
        ("foo".data ++ '.' :: 'b' :: " > 5".data)
      = evalWhereClause ⟨"k", JValue.obj [("b", JValue.int 7)], 1, 0, 1⟩
        ("value".data ++ '.' :: 'b' :: " > 5".data)
    ∧ parse_query (joinDots ["ap".data, ['b']] ++ ' ' :: (['>'] ++ ' ' :: ['2','5']))
      = .ok (joinDots ["ap".data, ['b']], ['>'],
          .int ((digitsToNat ['2','5'] : Nat) : Int)) := by
  constructor
  · exact where_clause_first_segment_irrelevant.1
      ⟨"k", JValue.obj [("b", JValue.int 7)], 1, 0, 1⟩ "foo".data 'b' " > 5".data
      (by decide) (by decide) (by decide)
  · exact where_clause_first_segment_irrelevant.2.2.1 "ap".data [['b']] ['>'] ['2','5']
      (by decide) (by decide) (by decide) (by decide)
      (Or.inr (Or.inr (Or.inr (Or.inr (Or.inl rfl))))) (by decide) (by decide)
